import Mathlib

/-!
Shallow embedding of the smart-campus-navigation routing backend (src/app.py).

The service keeps an undirected weighted graph in memory, predicts per-edge
flow, derives discrete congestion penalties, and answers route queries with a
single-path search (networkx `astar_path` with the zero heuristic, i.e. a
uniform-cost search) and a k-alternatives enumerator (networkx
`shortest_simple_paths`, Yen's algorithm).  Node identifiers are strings;
float arithmetic of the source is embedded as exact rational arithmetic.
-/

namespace CampusNav

/-- Attributes stored on each edge by `load_graph` (src/app.py):
identifier, length in meters, capacity, kind, and base weight
(set to `length_m` at load time). -/
structure EdgeData where
  eid : String
  length_m : ℚ
  capacity : ℚ
  kind : String
  weight : ℚ
deriving DecidableEq, Repr

/-- An undirected graph in the style of `networkx.Graph`: a node list and an
edge list carrying edge data of type `ε`.  The penalized view of the graph
uses `ε = EdgeData × ℚ` (base data plus the derived `pen_weight`). -/
structure Graph (ε : Type) where
  nodes : List String
  edges : List (String × String × ε)
deriving DecidableEq

variable {ε : Type}

/-- Neighbors of `u` with the connecting edge's data, both orientations of the
stored undirected edges. -/
def Graph.adj (G : Graph ε) (u : String) : List (String × ε) :=
  G.edges.filterMap fun e =>
    if e.1 = u then some (e.2.1, e.2.2)
    else if e.2.1 = u then some (e.1, e.2.2)
    else none

/-- Edge-data lookup for an unordered pair, as `G.get_edge_data(u, v)`. -/
def Graph.findEdge (G : Graph ε) (u v : String) : Option ε :=
  (G.edges.find? fun e =>
    (decide (e.1 = u) && decide (e.2.1 = v)) ||
    (decide (e.1 = v) && decide (e.2.1 = u))).map fun e => e.2.2

/-- A nonempty list of nodes forming a walk: consecutive nodes joined by an
edge of the graph, and a single node required to be a node of the graph. -/
def Graph.isWalk (G : Graph ε) : List String → Bool
  | [] => false
  | [u] => G.nodes.contains u
  | u :: v :: rest => (G.findEdge u v).isSome && G.isWalk (v :: rest)

/-- Total cost of a node sequence under an edge-cost function taking the
traversal direction and the edge data (missing edges contribute 0). -/
def pathCost (G : Graph ε) (c : String → String → ε → ℚ) : List String → ℚ
  | u :: v :: rest =>
    (match G.findEdge u v with
     | some d => c u v d
     | none => 0) + pathCost G c (v :: rest)
  | _ => 0

/-- A walk of `G` from `s` to `t`. -/
def IsPathFromTo (G : Graph ε) (p : List String) (s t : String) : Prop :=
  G.isWalk p = true ∧ p.head? = some s ∧ p.getLast? = some t

/-- Every stored edge joins two nodes of the graph. -/
def Graph.WellFormed (G : Graph ε) : Prop :=
  ∀ e ∈ G.edges, e.1 ∈ G.nodes ∧ e.2.1 ∈ G.nodes

/-- At most one stored edge per unordered node pair, as in `networkx.Graph`
where `add_edge` on an existing pair overwrites the data. -/
def Graph.EdgeUnique (G : Graph ε) : Prop :=
  ∀ e₁ ∈ G.edges, ∀ e₂ ∈ G.edges,
    ((e₁.1 = e₂.1 ∧ e₁.2.1 = e₂.2.1) ∨ (e₁.1 = e₂.2.1 ∧ e₁.2.1 = e₂.1)) → e₁ = e₂

instance (G : Graph ε) (p : List String) (s t : String) :
    Decidable (IsPathFromTo G p s t) :=
  decidable_of_iff
    (G.isWalk p = true ∧ p.head? = some s ∧ p.getLast? = some t) Iff.rfl

instance (G : Graph ε) : Decidable G.WellFormed :=
  decidable_of_iff (∀ e ∈ G.edges, e.1 ∈ G.nodes ∧ e.2.1 ∈ G.nodes) Iff.rfl

instance (G : Graph ε) [DecidableEq ε] : Decidable G.EdgeUnique :=
  decidable_of_iff (∀ e₁ ∈ G.edges, ∀ e₂ ∈ G.edges,
    ((e₁.1 = e₂.1 ∧ e₁.2.1 = e₂.2.1) ∨ (e₁.1 = e₂.2.1 ∧ e₁.2.1 = e₂.1)) → e₁ = e₂)
    Iff.rfl

/-- Remove from a frontier list the earliest entry of minimal cost; `none` on
the empty list.  This realizes the heap order (cost, insertion counter) used
by the networkx searches. -/
def extractMin : List (ℚ × List String) → Option ((ℚ × List String) × List (ℚ × List String))
  | [] => none
  | x :: xs =>
    match extractMin xs with
    | none => some (x, [])
    | some (m, rest) => if x.1 ≤ m.1 then some (x, xs) else some (m, x :: rest)

/-- One step of uniform-cost search (`astar_path` with the zero heuristic):
pop the cheapest frontier entry (a cost together with the reversed partial
path), return when the target is reached, skip already-expanded nodes, and
otherwise expand the node's neighbors.  Fuel makes the recursion structural. -/
def dijkstraAux (G : Graph ε) (c : String → String → ε → ℚ) (target : String) :
    ℕ → List String → List (ℚ × List String) → Option (ℚ × List String)
  | 0, _, _ => none
  | fuel + 1, visited, frontier =>
    match extractMin frontier with
    | none => none
    | some ((d, path), rest) =>
      match path with
      | [] => none
      | u :: _ =>
        if u = target then some (d, path.reverse)
        else if u ∈ visited then dijkstraAux G c target fuel visited rest
        else
          dijkstraAux G c target fuel (u :: visited)
            (rest ++ (G.adj u).map fun ve => (d + c u ve.1 ve.2, ve.1 :: path))

/-- Fuel that provably dominates the number of search steps. -/
def fuelBound (G : Graph ε) : ℕ :=
  (G.nodes.dedup.length + 1) * (G.edges.length + 2) + 2

/-- Single-path search: cheapest walk from `source` to `target` under the
edge-cost function, together with its cost; `none` when unreachable
(the searches of the source raise `NetworkXNoPath` there). -/
def dijkstra (G : Graph ε) (c : String → String → ε → ℚ) (source target : String) :
    Option (ℚ × List String) :=
  dijkstraAux G c target (fuelBound G) [] [(0, [source])]

/-- One row of the forecast table: per-edge predicted flow and capacity
(`predict_forecast` returns records with these three fields). -/
structure ForecastEntry where
  edge_id : String
  pred_flow : ℚ
  capacity : ℚ
deriving DecidableEq, Repr

/-- The `app.forecast_map` dictionary: edge identifier to forecast entry. -/
abbrev FMap := List (String × ForecastEntry)

/-- The fixed feature schema FEATURES of src/app.py. -/
structure FeatureRow where
  hour : ℚ
  day_of_week : ℤ
  is_peak : ℤ
  capacity : ℚ
  length_m : ℚ
  flow_lag1 : ℚ
  flow_lag2 : ℚ
deriving DecidableEq

/-- Association-list update with python-dict semantics: overwrite the value
when the key is present, append otherwise. -/
def assocUpdate {κ ν : Type} [DecidableEq κ] (m : List (κ × ν)) (k : κ) (v : ν) :
    List (κ × ν) :=
  if m.any fun p => decide (p.1 = k) then
    m.map fun p => if p.1 = k then (k, v) else p
  else m ++ [(k, v)]

/-- Association-list lookup (first occurrence; `assocUpdate` keeps keys
unique, matching python-dict lookup). -/
def assocFind {κ ν : Type} [DecidableEq κ] (m : List (κ × ν)) (k : κ) : Option ν :=
  (m.find? fun p => decide (p.1 = k)).map Prod.snd

/-- Build `app.forecast_map` from a forecast table:
`{r["edge_id"]: r for r in result}`, later entries overwriting earlier. -/
def mkMap (result : List ForecastEntry) : FMap :=
  result.foldl (fun m r => assocUpdate m r.edge_id r) []

/-- The table built by `predict_forecast`: one feature row per stored edge
(with static attributes and the placeholder lag features `0.1 * capacity`),
batch-predicted by the opaque regression model. -/
def predict_forecast (model : FeatureRow → ℚ) (G : Graph EdgeData)
    (hour : ℚ) (day_of_week : ℤ) (is_peak : ℤ) : List ForecastEntry :=
  G.edges.map fun e =>
    { edge_id := e.2.2.eid
      pred_flow := model
        { hour := hour
          day_of_week := day_of_week
          is_peak := is_peak
          capacity := e.2.2.capacity
          length_m := e.2.2.length_m
          flow_lag1 := (1 / 10) * e.2.2.capacity
          flow_lag2 := (1 / 10) * e.2.2.capacity }
      capacity := e.2.2.capacity }

/-- Discrete congestion penalty of src/app.py: 0 when there is no active
forecast or the edge is absent from it; otherwise tiers on
`pred_flow / max(capacity, 1)` at 0.5 and 0.8. -/
def congestion_penalty (active : Option FMap) (edge_id : String) : ℚ :=
  let forecast_map := active.getD []
  match assocFind forecast_map edge_id with
  | none => 0
  | some f =>
    let r := f.pred_flow / max f.capacity 1
    if r < 1 / 2 then 0
    else if r < 4 / 5 then 3 / 10
    else 7 / 10

/-- The congestion-aware cost closure of `astar_with_congestion`:
`length_m * (1 + penalty)`. -/
def penCost (active : Option FMap) : String → String → EdgeData → ℚ :=
  fun _ _ data => data.length_m * (1 + congestion_penalty active data.eid)

/-- The pure-distance cost closure of `astar_distance_only`. -/
def distCost : String → String → EdgeData → ℚ :=
  fun _ _ data => data.length_m

/-- Primary congestion-aware search of src/app.py (zero heuristic). -/
def astar_with_congestion (G : Graph EdgeData) (active : Option FMap)
    (source target : String) : Option (ℚ × List String) :=
  dijkstra G (penCost active) source target

/-- Distance-only search of src/app.py (zero heuristic). -/
def astar_distance_only (G : Graph EdgeData) (source target : String) :
    Option (ℚ × List String) :=
  dijkstra G distCost source target

/-- Total path length in meters (`path_length` of src/app.py): missing edge
data contributes 0. -/
def path_length (G : Graph EdgeData) : List String → ℚ
  | u :: v :: rest =>
    (match G.findEdge u v with
     | some d => d.length_m
     | none => 0) + path_length G (v :: rest)
  | _ => 0

/-- Copy of the graph with the derived `pen_weight` attribute per edge
(`build_penalized_graph` of src/app.py). -/
def build_penalized_graph (G : Graph EdgeData) (active : Option FMap) :
    Graph (EdgeData × ℚ) :=
  { nodes := G.nodes
    edges := G.edges.map fun e =>
      (e.1, e.2.1,
        (e.2.2, e.2.2.length_m * (1 + congestion_penalty active e.2.2.eid))) }

/-- Edges forbidden for the spur search of Yen's algorithm at deviation
index `i` (networkx `shortest_simple_paths`): accumulated over indices
`j = 1..i`, the `j`-th edge of every previously accepted path sharing the
length-`j` root with the current path. -/
def ignoreEdgesAt (listA : List (List String)) (P : List String) (i : ℕ) :
    List (String × String) :=
  (List.range' 1 i).flatMap fun j =>
    listA.filterMap fun A =>
      if A.take j = P.take j then
        match A.get? (j - 1), A.get? j with
        | some a, some b => some (a, b)
        | _, _ => none
      else none

/-- Subgraph with the given nodes hidden and the given (unordered) edge
pairs hidden, as the filtered views used by the networkx spur search. -/
def reduceGraph (G : Graph ε) (ignN : List String) (ignE : List (String × String)) :
    Graph ε :=
  { nodes := G.nodes.filter fun n => !ignN.contains n
    edges := G.edges.filter fun e =>
      !ignN.contains e.1 && !ignN.contains e.2.1 &&
      !ignE.contains (e.1, e.2.1) && !ignE.contains (e.2.1, e.1) }

/-- Spur candidate of Yen's algorithm at deviation index `i` of the accepted
path `P`: shortest deviation in the reduced graph, with the root's cost
(computed on the full graph) added. -/
def spurCandidate (G : Graph ε) (w : ε → ℚ) (target : String)
    (listA : List (List String)) (P : List String) (i : ℕ) : Option (ℚ × List String) :=
  match P.get? (i - 1) with
  | none => none
  | some spurNode =>
    let root := P.take i
    let G' := reduceGraph G (P.take (i - 1)) (ignoreEdgesAt listA P i)
    match dijkstra G' (fun _ _ d => w d) spurNode target with
    | none => none
    | some (spurLen, spur) =>
      some (pathCost G (fun _ _ d => w d) root + spurLen, P.take (i - 1) ++ spur)

/-- Push into the candidate buffer unless the path is already present
(`PathBuffer.push` of networkx dedups on the path). -/
def bufferPush (buffer : List (ℚ × List String)) (c : ℚ) (p : List String) :
    List (ℚ × List String) :=
  if buffer.any fun e => decide (e.2 = p) then buffer else buffer ++ [(c, p)]

/-- Push the spur candidate at one deviation index, if the spur search
succeeded (`except NetworkXNoPath: pass`). -/
def candStep (G : Graph ε) (w : ε → ℚ) (target : String)
    (listA : List (List String)) (P : List String)
    (b : List (ℚ × List String)) (i : ℕ) : List (ℚ × List String) :=
  match spurCandidate G w target listA P i with
  | none => b
  | some cd => bufferPush b cd.1 cd.2

/-- Generate and push all spur candidates of the just-accepted path `P`
(deviation indices `1 .. |P| - 1`). -/
def pushCandidates (G : Graph ε) (w : ε → ℚ) (target : String)
    (listA : List (List String)) (P : List String)
    (buffer : List (ℚ × List String)) : List (ℚ × List String) :=
  (List.range' 1 (P.length - 1)).foldl (candStep G w target listA P) buffer

/-- Main loop of `k_shortest_paths`: pop the cheapest buffered candidate,
append it to the accepted list, stop as soon as `k` paths are collected or
the buffer is exhausted, and otherwise push the popped path's spur
candidates.  ` k` is an integer exactly as in the source, where `k < 1` still
yields the first popped path. -/
def kLoop (G : Graph ε) (w : ε → ℚ) (target : String) (k : ℤ) :
    ℕ → List (List String) → List (ℚ × List String) → List (List String)
  | 0, acc, _ => acc
  | fuel + 1, acc, buffer =>
    match extractMin buffer with
    | none => acc
    | some ((_, P), rest) =>
      let acc' := acc ++ [P]
      if (acc'.length : ℤ) ≥ k then acc'
      else kLoop G w target k fuel acc' (pushCandidates G w target acc' P rest)

/-- Up to `k` shortest loopless paths by the given per-edge weight
(`k_shortest_paths` of src/app.py over networkx `shortest_simple_paths`);
`none` when no path at all exists (`NetworkXNoPath` propagates). -/
def k_shortest_paths (G : Graph ε) (source target : String) (w : ε → ℚ) (k : ℤ) :
    Option (List (List String)) :=
  match dijkstra G (fun _ _ d => w d) source target with
  | none => none
  | some dp => some (kLoop G w target k (k.toNat + 1) [] [dp])

/-- State of networkx `_bidirectional_dijkstra` (simple_paths.py): per
direction (0 = forward from the source, 1 = backward from the target) the
finalized distances, the path table, the fringe heap of (distance,
insertion counter, node) and the tentative distances; plus the global
insertion counter, the best meeting path found so far and the direction
last expanded. -/
structure BDState where
  dists0 : List (String × ℚ)
  dists1 : List (String × ℚ)
  paths0 : List (String × List String)
  paths1 : List (String × List String)
  fringe0 : List (ℚ × ℕ × String)
  fringe1 : List (ℚ × ℕ × String)
  seen0 : List (String × ℚ)
  seen1 : List (String × ℚ)
  cnt : ℕ
  final : Option (ℚ × List String)
  dir : ℕ

/-- Pop the heap minimum by the lexicographic (distance, counter) order the
python heapq uses on (dist, counter, node) tuples; counters are unique, so
the minimum is unique. -/
def extractMinC : List (ℚ × ℕ × String) →
    Option ((ℚ × ℕ × String) × List (ℚ × ℕ × String))
  | [] => none
  | x :: xs =>
    match extractMinC xs with
    | none => some (x, [])
    | some (m, rest) =>
      if x.1 < m.1 ∨ (x.1 = m.1 ∧ x.2.1 ≤ m.2.1) then some (x, xs)
      else some (m, x :: rest)

/-- The relaxation loop of networkx `_bidirectional_dijkstra`: scan the
neighbors of the node `v` just finalized at distance `dv` in direction
`dir`, record improved tentative distances, push them with the global
insertion counter, extend the direction's path table, and update the best
meeting path discovered so far.  The ValueError the library raises on
negative weights cannot trigger for the nonnegative costs used here and is
not modelled. -/
def bdRelax (G : Graph ε) (c : String → String → ε → ℚ) (dir : ℕ) (v : String)
    (dv : ℚ) : BDState → BDState := fun st =>
  (G.adj v).foldl (fun st ve =>
    let w := ve.1
    let minweight := if dir = 0 then c v w ve.2 else c w v ve.2
    let vwLength := dv + minweight
    let distsD := if dir = 0 then st.dists0 else st.dists1
    let seenD := if dir = 0 then st.seen0 else st.seen1
    if (assocFind distsD w).isSome then st
    else
      let relaxing :=
        match assocFind seenD w with
        | none => true
        | some sw => decide (vwLength < sw)
      if relaxing then
        let pathsD := if dir = 0 then st.paths0 else st.paths1
        let pw := (assocFind pathsD v).getD [] ++ [w]
        let st' :=
          if dir = 0 then
            { st with seen0 := assocUpdate st.seen0 w vwLength
                      paths0 := assocUpdate st.paths0 w pw
                      fringe0 := st.fringe0 ++ [(vwLength, st.cnt, w)]
                      cnt := st.cnt + 1 }
          else
            { st with seen1 := assocUpdate st.seen1 w vwLength
                      paths1 := assocUpdate st.paths1 w pw
                      fringe1 := st.fringe1 ++ [(vwLength, st.cnt, w)]
                      cnt := st.cnt + 1 }
        match assocFind st'.seen0 w, assocFind st'.seen1 w with
        | some s0, some s1 =>
          let totaldist := s0 + s1
          let better :=
            match st'.final with
            | none => true
            | some f => decide (totaldist < f.1)
          if better then
            { st' with final := some (totaldist,
                ((assocFind st'.paths0 w).getD []) ++
                  ((assocFind st'.paths1 w).getD []).reverse.tail) }
          else st'
        | _, _ => st'
      else st) st

/-- The alternating main loop of networkx `_bidirectional_dijkstra`: while
both fringes are nonempty, flip the direction, pop the cheapest (distance,
counter) entry, skip already finalized nodes, and otherwise finalize the
node — returning the best meeting path when it is now settled in both
directions, else relaxing its neighbors.  Fuel makes the recursion
structural. -/
def bdAux (G : Graph ε) (c : String → String → ε → ℚ) :
    ℕ → BDState → Option (ℚ × List String)
  | 0, _ => none
  | fuel + 1, st =>
    if st.fringe0 = [] ∨ st.fringe1 = [] then none
    else
      let dir := 1 - st.dir
      let fr := if dir = 0 then st.fringe0 else st.fringe1
      match extractMinC fr with
      | none => none
      | some ((dist, _, v), rest) =>
        let st1 := if dir = 0 then { st with fringe0 := rest, dir := dir }
                   else { st with fringe1 := rest, dir := dir }
        let distsD := if dir = 0 then st.dists0 else st.dists1
        if (assocFind distsD v).isSome then bdAux G c fuel st1
        else
          let st2 :=
            if dir = 0 then { st1 with dists0 := assocUpdate st1.dists0 v dist }
            else { st1 with dists1 := assocUpdate st1.dists1 v dist }
          let distsO := if dir = 0 then st.dists1 else st.dists0
          if (assocFind distsO v).isSome then st.final
          else bdAux G c fuel (bdRelax G c dir v dist st2)

/-- networkx `_bidirectional_dijkstra` as `shortest_simple_paths` calls it
for its very first search (no ignored nodes or edges): this is the
enumerator's first yielded path.  Modelled from the library's
simple_paths.py, since the repository vendors no networkx code; it searches
from both endpoints at once and therefore breaks equal-cost ties
differently from the source-rooted `astar_path` search. -/
def bidirectional_dijkstra (G : Graph ε) (c : String → String → ε → ℚ)
    (source target : String) : Option (ℚ × List String) :=
  if source = target then
    if G.nodes.contains source then some (0, [source]) else none
  else
    bdAux G c (2 * fuelBound G)
      { dists0 := [], dists1 := []
        paths0 := [(source, [source])], paths1 := [(target, [target])]
        fringe0 := [(0, 0, source)], fringe1 := [(0, 1, target)]
        seen0 := [(source, 0)], seen1 := [(target, 0)]
        cnt := 2, final := none, dir := 1 }

/-- Process-wide mutable state of the service: the forecast cache keyed by
(hour, day_of_week, is_peak), and the `app.forecast_map` attribute, absent
(`none`) until the first forecast resolves. -/
structure ServerState where
  cache : List ((ℚ × ℤ × ℤ) × List ForecastEntry)
  active : Option FMap
deriving DecidableEq

/-- The `/forecast` handler after parameter parsing: serve the cached table
for the exact key unless the cache is bypassed, otherwise compute and store
one; in both cases point `app.forecast_map` at the returned table. -/
def forecast (model : FeatureRow → ℚ) (G : Graph EdgeData) (σ : ServerState)
    (hour : ℚ) (day_of_week : ℤ) (is_peak : ℤ) (use_cache : Bool) :
    List ForecastEntry × ServerState :=
  let key := (hour, day_of_week, is_peak)
  match (if use_cache then assocFind σ.cache key else none) with
  | some result => (result, { σ with active := some (mkMap result) })
  | none =>
    let result := predict_forecast model G hour day_of_week is_peak
    (result, { cache := assocUpdate σ.cache key result, active := some (mkMap result) })

/-- A rendered path of the `/route` response: node sequence and total length
in meters (the per-node coordinate/label decoration is omitted from the
embedding). -/
structure PathInfo where
  path : List String
  len_m : ℚ
deriving DecidableEq, Repr

/-- The `/route` response body: primary and alternative paths per mode. -/
structure RouteOut where
  best : Option PathInfo
  best_alts : Option (List PathInfo)
  shortest : Option PathInfo
  shortest_alts : Option (List PathInfo)
deriving DecidableEq, Repr

/-- An HTTP-level outcome: a 200 payload, a structured error with status
code, or an uncaught exception (HTTP 500). -/
inductive Resp where
  | ok (out : RouteOut)
  | err (status : ℕ) (msg : String)
  | crash (msg : String)
deriving DecidableEq, Repr

/-- The penalized branch of `/route` (lines 226-259 of src/app.py): the
congestion-aware best path and the k alternatives on the `pen_weight` view;
`none` when either search raises `NetworkXNoPath`. -/
def penCompute (G : Graph EdgeData) (active : Option FMap) (s t : String)
    (k : ℤ) : Option (PathInfo × List PathInfo) :=
  match astar_with_congestion G active s t with
  | none => none
  | some bp =>
    match k_shortest_paths (build_penalized_graph G active) s t Prod.snd k with
    | none => none
    | some alts =>
      some (⟨bp.2, path_length G bp.2⟩, alts.map fun p => ⟨p, path_length G p⟩)

/-- The distance branch of `/route` (lines 260-291 of src/app.py): shortest
path and k alternatives by base weight; `none` when a search raises. -/
def distCompute (G : Graph EdgeData) (s t : String) (k : ℤ) :
    Option (PathInfo × List PathInfo) :=
  match astar_distance_only G s t with
  | none => none
  | some sp =>
    match k_shortest_paths G s t (fun d => d.weight) k with
    | none => none
    | some alts =>
      some (⟨sp.2, path_length G sp.2⟩, alts.map fun p => ⟨p, path_length G p⟩)

/-- The `/route` handler of src/app.py.  `source`/`target` are `none` when
missing, `kArg` is `none` when `int(k)` raises (which happens before any
validation), and `mode` defaults to "both" at the transport layer.  The
checks run in source order: missing parameters, unknown nodes, falsy
`app.forecast_map`; then the penalized and distance branches (the outer
`Option` is `none` when the branch's try-block raised `NetworkXNoPath`, the
inner one `none` when the mode skipped the branch); an empty result
dictionary yields the 404 "no path" response. -/
def route (G : Graph EdgeData) (σ : ServerState)
    (source target : Option String) (mode : String) (kArg : Option ℤ) : Resp :=
  match kArg with
  | none => .crash "ValueError"
  | some k =>
    match source, target with
    | none, _ => .err 400 "source and target are required"
    | _, none => .err 400 "source and target are required"
    | some s, some t =>
      if ¬ (s ∈ G.nodes ∧ t ∈ G.nodes) then .err 400 "invalid source/target"
      else if σ.active = none ∨ σ.active = some [] then
        .err 400 "forecast not loaded; call /forecast first"
      else
        match (if mode = "both" ∨ mode = "penalized"
               then (penCompute G σ.active s t k).map some
               else some none) with
        | none => .err 404 "no path"
        | some pen =>
          match (if mode = "both" ∨ mode = "distance"
                 then (distCompute G s t k).map some
                 else some none) with
          | none => .err 404 "no path"
          | some dist =>
            match pen, dist with
            | none, none => .err 404 "no path"
            | _, _ =>
              .ok { best := pen.map fun x => x.1
                    best_alts := pen.map fun x => x.2
                    shortest := dist.map fun x => x.1
                    shortest_alts := dist.map fun x => x.2 }

/-- The relation joining consecutive nodes of a walk. -/
def edgeRel (G : Graph ε) (u v : String) : Prop :=
  (G.findEdge u v).isSome = true

/-- Propositional characterization of `Graph.isWalk`: a nonempty node list
inside the graph whose consecutive nodes are joined by edges. -/
def WalkP (G : Graph ε) (l : List String) : Prop :=
  l ≠ [] ∧ (∀ x ∈ l, x ∈ G.nodes) ∧ List.Chain' (edgeRel G) l

/-- Invariant of the uniform-cost search.  Frontier entries are reversed
walks from the source whose recorded cost is their path cost and whose
non-head nodes are expanded and distinct; every expanded node carries a cost
that lower-bounds all simple paths to it and whose outgoing edges to
unexpanded nodes are covered by frontier entries; the source is covered
while unexpanded. -/
structure DijkInv (G : Graph ε) (c : String → String → ε → ℚ) (source : String)
    (visited : List String) (frontier : List (ℚ × List String)) : Prop where
  entries : ∀ e ∈ frontier, G.isWalk e.2 = true ∧ e.2.getLast? = some source ∧
    e.1 = pathCost G c e.2.reverse ∧ e.2.tail.Nodup ∧ ∀ x ∈ e.2.tail, x ∈ visited
  visited_opt : ∀ v ∈ visited, ∃ cv : ℚ,
    (∀ q, IsPathFromTo G q source v → q.Nodup → cv ≤ pathCost G c q) ∧
    ∀ ve ∈ G.adj v, ve.1 ∉ visited →
      ∃ e ∈ frontier, e.2.head? = some ve.1 ∧ e.1 ≤ cv + c v ve.1 ve.2
  source_cov : source ∉ visited → ∃ e ∈ frontier, e.2.head? = some source ∧ e.1 ≤ 0
  visited_nodes : ∀ v ∈ visited, v ∈ G.nodes
  visited_nodup : visited.Nodup

/-- Termination measure of the search: pending frontier entries plus a
budget for every unexpanded node. -/
def dijkMeasure (G : Graph ε) (visited : List String)
    (frontier : List (ℚ × List String)) : ℕ :=
  frontier.length +
    (G.nodes.dedup.filter fun x => decide (x ∉ visited)).length * (G.edges.length + 1)

/-- Length of the longest common prefix of two node lists. -/
def lcp : List String → List String → ℕ
  | x :: xs, y :: ys => if x = y then lcp xs ys + 1 else 0
  | _, _ => 0

/-- Maximal common-prefix length of `Q` against the accepted paths, floored
at 1 (all considered paths share the source node). -/
def maxLcp (listA : List (List String)) (Q : List String) : ℕ :=
  listA.foldl (fun m A => max m (lcp A Q)) 1

/-- The cost function induced by a per-edge weight. -/
def wCost (w : ε → ℚ) : String → String → ε → ℚ := fun _ _ d => w d

/-- Invariant of the Yen enumeration: buffered candidates are simple paths
from source to target carrying their true cost, pairwise distinct as paths,
and not yet accepted; accepted paths are simple paths; and every simple
path not yet accepted is covered by a buffered candidate of no larger cost
that agrees with it beyond its deepest deviation from the accepted set. -/
structure YenInv (G : Graph ε) (w : ε → ℚ) (source target : String)
    (listA : List (List String)) (buffer : List (ℚ × List String)) : Prop where
  bpaths : ∀ e ∈ buffer, IsPathFromTo G e.2 source target ∧ e.2.Nodup ∧
    e.1 = pathCost G (wCost w) e.2
  bnodup : (buffer.map Prod.snd).Nodup
  bfresh : ∀ e ∈ buffer, e.2 ∉ listA
  apaths : ∀ P ∈ listA, IsPathFromTo G P source target ∧ P.Nodup
  cover : ∀ Q, IsPathFromTo G Q source target → Q.Nodup → Q ∉ listA →
    ∃ e ∈ buffer, e.1 ≤ pathCost G (wCost w) Q ∧
      e.2.take (maxLcp listA Q) = Q.take (maxLcp listA Q)

/-- Whether a response is a 200 payload. -/
def isOkResp : Resp → Bool
  | .ok _ => true
  | _ => false

/-- Coverage invariant of a forecast table: exactly one entry per stored
edge, in edge order, keyed by that edge's identifier. -/
def FullTable (G : Graph EdgeData) (tbl : List ForecastEntry) : Prop :=
  tbl.map (fun r => r.edge_id) = G.edges.map fun e => e.2.2.eid

/-- Concrete two-node campus used to instantiate the theorems. -/
def Gw : Graph EdgeData :=
  { nodes := ["A", "B"]
    edges := [("A", "B", ⟨"e1", 5, 10, "walkway", 5⟩)] }

/-- Concrete four-node diamond with two equal-cost simple routes from
"A" to "D". -/
def Gsq : Graph EdgeData :=
  { nodes := ["A", "B", "C", "D"]
    edges := [("A", "B", ⟨"e1", 1, 10, "walkway", 1⟩),
              ("B", "D", ⟨"e2", 1, 10, "walkway", 1⟩),
              ("A", "C", ⟨"e3", 1, 10, "walkway", 1⟩),
              ("C", "D", ⟨"e4", 1, 10, "walkway", 1⟩)] }

/-- Concrete graph with two isolated nodes. -/
def Gdisc : Graph EdgeData := { nodes := ["A", "B"], edges := [] }

/-- Concrete unit-length diamond with insertion order (A,B), (A,C), (C,D),
(B,D): the forward frontier from "A" reaches "B" first (edge inserted
first), while the backward frontier from "D" reaches "C" first, so the two
searches settle different equal-cost representatives. -/
def Gbd : Graph EdgeData :=
  { nodes := ["A", "B", "C", "D"]
    edges := [("A", "B", ⟨"e1", 1, 10, "walkway", 1⟩),
              ("A", "C", ⟨"e2", 1, 10, "walkway", 1⟩),
              ("C", "D", ⟨"e3", 1, 10, "walkway", 1⟩),
              ("B", "D", ⟨"e4", 1, 10, "walkway", 1⟩)] }

/-- A server state before any `/forecast` call. -/
def st0 : ServerState := { cache := [], active := none }

/-- A server state holding one resolved forecast. -/
def st1 : ServerState :=
  { cache := [((9, 1, 1), [⟨"e1", 1, 10⟩])]
    active := some [("e1", ⟨"e1", 1, 10⟩)] }

/-- A concrete stand-in for the regression model. -/
def cmodel : FeatureRow → ℚ := fun r => r.capacity / 2

/-! Basic lemmas: the frontier minimum, edge lookup, walks and costs. -/

theorem find?_congr_pred {α : Type} {p q : α → Bool} (h : ∀ a, p a = q a) :
    ∀ l : List α, l.find? p = l.find? q := by
  intro l
  induction l with
  | nil => rfl
  | cons x xs ih =>
    simp only [List.find?]
    rw [h x]
    cases q x <;> simp [ih]

theorem extractMin_eq_none {l : List (ℚ × List String)} :
    extractMin l = none ↔ l = [] := by
  cases l with
  | nil => simp [extractMin]
  | cons x xs =>
    simp only [extractMin]
    cases h : extractMin xs with
    | none => simp
    | some m =>
      obtain ⟨m, rest⟩ := m
      by_cases hx : x.1 ≤ m.1 <;> simp [hx]

theorem extractMin_perm {l : List (ℚ × List String)} {m rest}
    (h : extractMin l = some (m, rest)) : l.Perm (m :: rest) := by
  induction l generalizing m rest with
  | nil => simp [extractMin] at h
  | cons x xs ih =>
    simp only [extractMin] at h
    cases hxs : extractMin xs with
    | none =>
      rw [hxs] at h
      have hx : xs = [] := extractMin_eq_none.mp hxs
      subst hx
      simp only [Option.some.injEq, Prod.mk.injEq] at h
      obtain ⟨h1, h2⟩ := h
      subst h1; subst h2
      exact List.Perm.refl _
    | some p =>
      obtain ⟨m', rest'⟩ := p
      rw [hxs] at h
      by_cases hle : x.1 ≤ m'.1
      · simp only [hle, if_true, Option.some.injEq, Prod.mk.injEq] at h
        obtain ⟨h1, h2⟩ := h
        subst h1; subst h2
        exact List.Perm.refl _
      · simp only [hle, if_false, Option.some.injEq, Prod.mk.injEq] at h
        obtain ⟨h1, h2⟩ := h
        subst h1; subst h2
        exact List.Perm.trans (List.Perm.cons _ (ih hxs)) (List.Perm.swap _ _ _)

theorem extractMin_min {l : List (ℚ × List String)} {m rest}
    (h : extractMin l = some (m, rest)) : ∀ e ∈ l, m.1 ≤ e.1 := by
  induction l generalizing m rest with
  | nil => simp [extractMin] at h
  | cons x xs ih =>
    simp only [extractMin] at h
    cases hxs : extractMin xs with
    | none =>
      rw [hxs] at h
      have hx : xs = [] := extractMin_eq_none.mp hxs
      subst hx
      simp only [Option.some.injEq, Prod.mk.injEq] at h
      obtain ⟨h1, _⟩ := h
      subst h1
      intro e he
      simp only [List.mem_singleton] at he
      subst he; exact le_refl _
    | some p =>
      obtain ⟨m', rest'⟩ := p
      rw [hxs] at h
      by_cases hle : x.1 ≤ m'.1
      · simp only [hle, if_true, Option.some.injEq, Prod.mk.injEq] at h
        obtain ⟨h1, _⟩ := h
        subst h1
        intro e he
        rcases List.mem_cons.mp he with he | he
        · subst he; exact le_refl _
        · exact le_trans hle (ih hxs e he)
      · simp only [hle, if_false, Option.some.injEq, Prod.mk.injEq] at h
        obtain ⟨h1, _⟩ := h
        subst h1
        intro e he
        rcases List.mem_cons.mp he with he | he
        · subst he; exact le_of_not_le hle
        · exact ih hxs e he

theorem extractMin_mem {l : List (ℚ × List String)} {m rest}
    (h : extractMin l = some (m, rest)) : m ∈ l :=
  (extractMin_perm h).symm.subset (List.mem_cons_self _ _)

theorem extractMin_length {l : List (ℚ × List String)} {m rest}
    (h : extractMin l = some (m, rest)) : l.length = rest.length + 1 := by
  simpa using (extractMin_perm h).length_eq

theorem mem_rest_of_extractMin {l : List (ℚ × List String)} {m rest e}
    (h : extractMin l = some (m, rest)) (he : e ∈ l) (hne : e ≠ m) : e ∈ rest := by
  rcases List.mem_cons.mp ((extractMin_perm h).subset he) with h' | h'
  · exact absurd h' hne
  · exact h'

theorem findEdge_symm (G : Graph ε) (u v : String) : G.findEdge u v = G.findEdge v u := by
  unfold Graph.findEdge
  rw [find?_congr_pred (fun e => Bool.or_comm _ _)]

theorem findEdge_some_mem {G : Graph ε} {u v : String} {d : ε}
    (h : G.findEdge u v = some d) :
    ∃ a b, (a, b, d) ∈ G.edges ∧ ((a = u ∧ b = v) ∨ (a = v ∧ b = u)) := by
  unfold Graph.findEdge at h
  cases hf : G.edges.find? (fun e =>
      (decide (e.1 = u) && decide (e.2.1 = v)) ||
      (decide (e.1 = v) && decide (e.2.1 = u))) with
  | none => rw [hf] at h; simp at h
  | some e =>
    rw [hf] at h
    simp only [Option.map] at h
    injection h with h
    have hmem := List.mem_of_find?_eq_some hf
    have hpred := List.find?_some hf
    simp only [Bool.or_eq_true, Bool.and_eq_true, decide_eq_true_eq] at hpred
    exact ⟨e.1, e.2.1, by rw [← h]; simpa using hmem, hpred⟩

theorem adj_of_findEdge {G : Graph ε} {u v : String} {d : ε}
    (h : G.findEdge u v = some d) : (v, d) ∈ G.adj u := by
  obtain ⟨a, b, hmem, hab⟩ := findEdge_some_mem h
  unfold Graph.adj
  rw [List.mem_filterMap]
  refine ⟨(a, b, d), hmem, ?_⟩
  rcases hab with ⟨ha, hb⟩ | ⟨ha, hb⟩
  · simp [ha, hb]
  · by_cases huv : v = u
    · have ha' : a = u := by rw [ha, huv]
      have hb' : b = v := by rw [hb, huv]
      simp [ha', hb']
    · have ha1 : ¬ a = u := by rw [ha]; exact huv
      rw [if_neg ha1, if_pos hb, ha]

theorem adj_mem_cases {G : Graph ε} {u v : String} {d : ε}
    (h : (v, d) ∈ G.adj u) : (u, v, d) ∈ G.edges ∨ (v, u, d) ∈ G.edges := by
  unfold Graph.adj at h
  rw [List.mem_filterMap] at h
  obtain ⟨e, hmem, heq⟩ := h
  by_cases h1 : e.1 = u
  · simp only [h1, if_true, Option.some.injEq, Prod.mk.injEq] at heq
    left
    obtain ⟨hv, hd⟩ := heq
    have : e = (u, v, d) := by
      obtain ⟨x, y, z⟩ := e
      simp_all
    rwa [this] at hmem
  · simp only [h1, if_false] at heq
    by_cases h2 : e.2.1 = u
    · simp only [h2, if_true, Option.some.injEq, Prod.mk.injEq] at heq
      right
      obtain ⟨hv, hd⟩ := heq
      have : e = (v, u, d) := by
        obtain ⟨x, y, z⟩ := e
        simp_all
      rwa [this] at hmem
    · simp [h2] at heq

theorem findEdge_of_adj {G : Graph ε} (uniq : G.EdgeUnique) {u v : String} {d : ε}
    (h : (v, d) ∈ G.adj u) : G.findEdge u v = some d := by
  have hcases := adj_mem_cases h
  have hex : ∃ e ∈ G.edges,
      ((decide (e.1 = u) && decide (e.2.1 = v)) ||
       (decide (e.1 = v) && decide (e.2.1 = u))) = true := by
    rcases hcases with hm | hm
    · exact ⟨(u, v, d), hm, by simp⟩
    · exact ⟨(v, u, d), hm, by simp⟩
  rw [← List.find?_isSome] at hex
  unfold Graph.findEdge
  cases hf : G.edges.find? (fun e =>
      (decide (e.1 = u) && decide (e.2.1 = v)) ||
      (decide (e.1 = v) && decide (e.2.1 = u))) with
  | none => rw [hf] at hex; simp at hex
  | some e =>
    have hmem := List.mem_of_find?_eq_some hf
    have hpred := List.find?_some hf
    simp only [Bool.or_eq_true, Bool.and_eq_true, decide_eq_true_eq] at hpred
    have he : e.2.2 = d := by
      rcases hcases with hm | hm
      · rcases hpred with ⟨h1, h2⟩ | ⟨h1, h2⟩
        · have := uniq e hmem (u, v, d) hm (by left; exact ⟨h1, h2⟩)
          rw [this]
        · have := uniq e hmem (u, v, d) hm (by right; exact ⟨h1, h2⟩)
          rw [this]
      · rcases hpred with ⟨h1, h2⟩ | ⟨h1, h2⟩
        · have := uniq e hmem (v, u, d) hm (by right; exact ⟨h1, h2⟩)
          rw [this]
        · have := uniq e hmem (v, u, d) hm (by left; exact ⟨h1, h2⟩)
          rw [this]
    simp [he]

theorem findEdge_isSome_mem_nodes {G : Graph ε} (wf : G.WellFormed) {u v : String}
    (h : (G.findEdge u v).isSome = true) : u ∈ G.nodes ∧ v ∈ G.nodes := by
  obtain ⟨d, hd⟩ := Option.isSome_iff_exists.mp h
  obtain ⟨a, b, hmem, hab⟩ := findEdge_some_mem hd
  have := wf _ hmem
  rcases hab with ⟨ha, hb⟩ | ⟨ha, hb⟩
  · rw [← ha, ← hb]; exact this
  · rw [← ha, ← hb]; exact ⟨this.2, this.1⟩

theorem edgeRel_symm {G : Graph ε} {u v : String} (h : edgeRel G u v) : edgeRel G v u := by
  unfold edgeRel at h ⊢
  rwa [findEdge_symm]

theorem isWalk_iff {G : Graph ε} (wf : G.WellFormed) {l : List String} :
    G.isWalk l = true ↔ WalkP G l := by
  induction l with
  | nil => simp [Graph.isWalk, WalkP]
  | cons u rest ih =>
    cases rest with
    | nil =>
      simp only [Graph.isWalk, WalkP, ne_eq, List.mem_singleton]
      constructor
      · intro h
        refine ⟨by exact List.cons_ne_nil _ _, ?_, List.chain'_singleton u⟩
        intro x hx
        subst hx
        exact List.elem_iff.mp h
      · intro ⟨_, h2, _⟩
        exact List.elem_iff.mpr (h2 u rfl)
    | cons v rest' =>
      simp only [Graph.isWalk, Bool.and_eq_true, ih, WalkP, List.chain'_cons]
      constructor
      · intro ⟨h1, _, h3, h4⟩
        refine ⟨by exact List.cons_ne_nil _ _, ?_, h1, h4⟩
        intro x hx
        rcases List.mem_cons.mp hx with hx | hx
        · subst hx; exact (findEdge_isSome_mem_nodes wf h1).1
        · exact h3 x hx
      · intro ⟨_, h2, h3, h4⟩
        exact ⟨h3, by exact List.cons_ne_nil _ _,
          fun x hx => h2 x (List.mem_cons_of_mem _ hx), h4⟩

theorem walk_mem_nodes {G : Graph ε} (wf : G.WellFormed) {l : List String}
    (h : G.isWalk l = true) : ∀ x ∈ l, x ∈ G.nodes :=
  ((isWalk_iff wf).mp h).2.1

theorem walk_ne_nil {G : Graph ε} {l : List String} (h : G.isWalk l = true) : l ≠ [] := by
  intro hl
  subst hl
  simp [Graph.isWalk] at h

theorem isWalk_reverse {G : Graph ε} (wf : G.WellFormed) {l : List String} :
    G.isWalk l.reverse = true ↔ G.isWalk l = true := by
  rw [isWalk_iff wf, isWalk_iff wf]
  unfold WalkP
  constructor
  · intro ⟨h1, h2, h3⟩
    refine ⟨by simpa using h1, fun x hx => h2 x (by simpa using hx), ?_⟩
    have := List.chain'_reverse.mp h3
    exact this.imp fun _ _ h => edgeRel_symm h
  · intro ⟨h1, h2, h3⟩
    refine ⟨by simpa using h1, fun x hx => h2 x (by simpa using hx), ?_⟩
    rw [List.chain'_reverse]
    exact h3.imp fun _ _ h => edgeRel_symm h

theorem isWalk_take {G : Graph ε} (wf : G.WellFormed) {l : List String}
    (h : G.isWalk l = true) {i : ℕ} (hi : 1 ≤ i) : G.isWalk (l.take i) = true := by
  rw [isWalk_iff wf] at h ⊢
  obtain ⟨h1, h2, h3⟩ := h
  refine ⟨?_, fun x hx => h2 x (List.mem_of_mem_take hx), h3.take i⟩
  cases l with
  | nil => exact absurd rfl h1
  | cons a l' =>
    cases i with
    | zero => omega
    | succ n => simp

theorem isWalk_drop {G : Graph ε} (wf : G.WellFormed) {l : List String}
    (h : G.isWalk l = true) {i : ℕ} (hi : i < l.length) : G.isWalk (l.drop i) = true := by
  rw [isWalk_iff wf] at h ⊢
  obtain ⟨h1, h2, h3⟩ := h
  refine ⟨?_, fun x hx => h2 x (List.mem_of_mem_drop hx), h3.drop i⟩
  intro hd
  have := List.length_drop i l
  rw [hd] at this
  simp at this
  omega

theorem isWalk_glue {G : Graph ε} (wf : G.WellFormed) {xs ys : List String} {y : String}
    (h1 : G.isWalk (xs ++ [y]) = true) (h2 : G.isWalk (y :: ys) = true) :
    G.isWalk (xs ++ y :: ys) = true := by
  rw [isWalk_iff wf] at h1 h2 ⊢
  obtain ⟨_, m1, c1⟩ := h1
  obtain ⟨_, m2, c2⟩ := h2
  refine ⟨by simp, ?_, ?_⟩
  · intro x hx
    rcases List.mem_append.mp hx with hx | hx
    · exact m1 x (List.mem_append_left _ hx)
    · exact m2 x hx
  · rw [List.chain'_append]
    rw [List.chain'_append] at c1
    refine ⟨c1.1, c2, ?_⟩
    intro a ha b hb
    have := c1.2.2 a ha y (by simp)
    simp only [List.head?_cons, Option.mem_def, Option.some.injEq] at hb
    rw [← hb]
    exact this

theorem pathCost_cons_cons {G : Graph ε} {c : String → String → ε → ℚ}
    (u v : String) (rest : List String) :
    pathCost G c (u :: v :: rest) =
      (match G.findEdge u v with | some d => c u v d | none => 0) +
        pathCost G c (v :: rest) := rfl

theorem pathCost_append_singleton {G : Graph ε} {c : String → String → ε → ℚ}
    {xs : List String} {u v : String} (hl : xs.getLast? = some u) :
    pathCost G c (xs ++ [v]) =
      pathCost G c xs +
        (match G.findEdge u v with | some d => c u v d | none => 0) := by
  induction xs with
  | nil => simp at hl
  | cons a xs ih =>
    cases xs with
    | nil =>
      simp only [List.getLast?_singleton, Option.some.injEq] at hl
      subst hl
      show pathCost G c (a :: [v]) = _
      rw [pathCost_cons_cons]
      show _ + (0 : ℚ) = (0 : ℚ) + _
      ring
    | cons b xs' =>
      have hl' : (b :: xs').getLast? = some u := by
        rwa [List.getLast?_cons_cons] at hl
      have hstep : pathCost G c ((a :: b :: xs') ++ [v]) =
          (match G.findEdge a b with | some d => c a b d | none => 0) +
            pathCost G c ((b :: xs') ++ [v]) := rfl
      rw [hstep, ih hl', pathCost_cons_cons]
      ring

theorem pathCost_singleton {G : Graph ε} {c : String → String → ε → ℚ} (u : String) :
    pathCost G c [u] = 0 := rfl

theorem pathCost_append_cons {G : Graph ε} {c : String → String → ε → ℚ}
    (xs : List String) (y : String) (ys : List String) :
    pathCost G c (xs ++ y :: ys) = pathCost G c (xs ++ [y]) + pathCost G c (y :: ys) := by
  induction xs with
  | nil =>
    show pathCost G c (y :: ys) = pathCost G c [y] + pathCost G c (y :: ys)
    rw [pathCost_singleton]
    ring
  | cons a xs ih =>
    cases xs with
    | nil =>
      show pathCost G c (a :: y :: ys) = pathCost G c (a :: [y]) + pathCost G c (y :: ys)
      rw [pathCost_cons_cons, pathCost_cons_cons, pathCost_singleton]
      ring
    | cons b xs' =>
      have h1 : pathCost G c ((a :: b :: xs') ++ y :: ys) =
          (match G.findEdge a b with | some d => c a b d | none => 0) +
            pathCost G c ((b :: xs') ++ y :: ys) := rfl
      have h2 : pathCost G c ((a :: b :: xs') ++ [y]) =
          (match G.findEdge a b with | some d => c a b d | none => 0) +
            pathCost G c ((b :: xs') ++ [y]) := rfl
      rw [h1, h2, ih]
      ring

theorem pathCost_nonneg {G : Graph ε} {c : String → String → ε → ℚ}
    (hnn : ∀ u v d, 0 ≤ c u v d) (p : List String) : 0 ≤ pathCost G c p := by
  induction p with
  | nil => simp [pathCost]
  | cons u rest ih =>
    cases rest with
    | nil => simp [pathCost]
    | cons v rest' =>
      simp only [pathCost]
      have : (0 : ℚ) ≤ match G.findEdge u v with | some d => c u v d | none => 0 := by
        cases G.findEdge u v with
        | none => simp
        | some d => exact hnn u v d
      exact add_nonneg this ih

/-! Correctness of the uniform-cost search. -/

theorem dijk_cover {G : Graph ε} {c : String → String → ε → ℚ} {source : String}
    {visited : List String} {frontier : List (ℚ × List String)}
    (wf : G.WellFormed) (hnn : ∀ u v d, 0 ≤ c u v d)
    (inv : DijkInv G c source visited frontier) :
    ∀ q v, IsPathFromTo G q source v → q.Nodup → v ∉ visited →
      ∃ e ∈ frontier, e.1 ≤ pathCost G c q := by
  intro q
  induction q using List.reverseRecOn with
  | nil =>
    intro v hq _ _
    exact absurd hq.1 (by simp [Graph.isWalk])
  | append_singleton xs y ih =>
    intro v hq hqn hv
    obtain ⟨hw, hh, hl⟩ := hq
    have hy : y = v := by
      rw [List.getLast?_concat] at hl
      exact Option.some.inj hl
    subst hy
    cases xs with
    | nil =>
      have hsrc : y = source := by
        simp only [List.nil_append, List.head?_cons, Option.some.injEq] at hh
        exact hh
      subst hsrc
      obtain ⟨e, he, _, hle⟩ := inv.source_cov hv
      refine ⟨e, he, ?_⟩
      calc e.1 ≤ 0 := hle
      _ = pathCost G c [y] := (pathCost_singleton y).symm
      _ = pathCost G c ([] ++ [y]) := by simp
    | cons a xs' =>
      set xs := a :: xs' with hxs
      have hxs_ne : xs ≠ [] := by simp [hxs]
      have hlx : xs.getLast? = some (xs.getLast hxs_ne) := List.getLast?_eq_getLast xs hxs_ne
      set u := xs.getLast hxs_ne with hu_def
      -- the walk decomposes into a walk on xs plus the edge from u to y
      have hwp := (isWalk_iff wf).mp hw
      obtain ⟨_, hmem, hchain⟩ := hwp
      rw [List.chain'_append] at hchain
      have hedge : edgeRel G u y := by
        refine hchain.2.2 u ?_ y ?_
        · rw [hlx]; rfl
        · rfl
      obtain ⟨dd, hdd⟩ := Option.isSome_iff_exists.mp hedge
      have hwxs : G.isWalk xs = true := by
        rw [isWalk_iff wf]
        exact ⟨hxs_ne, fun x hx => hmem x (List.mem_append_left _ hx), hchain.1⟩
      have hhxs : xs.head? = some source := by
        rwa [List.head?_append_of_ne_nil xs hxs_ne] at hh
      have hnxs : xs.Nodup := (List.nodup_append.mp hqn).1
      have hcost : pathCost G c (xs ++ [y]) = pathCost G c xs + c u y dd := by
        rw [pathCost_append_singleton hlx, hdd]
      by_cases hu : u ∈ visited
      · obtain ⟨cv, hopt, hadj⟩ := inv.visited_opt u hu
        have hcv : cv ≤ pathCost G c xs := hopt xs ⟨hwxs, hhxs, hlx⟩ hnxs
        have hmem_adj : (y, dd) ∈ G.adj u := adj_of_findEdge hdd
        obtain ⟨e, he, _, hle⟩ := hadj (y, dd) hmem_adj hv
        refine ⟨e, he, ?_⟩
        calc e.1 ≤ cv + c u y dd := hle
        _ ≤ pathCost G c xs + c u y dd := by linarith
        _ = pathCost G c (xs ++ [y]) := hcost.symm
      · obtain ⟨e, he, hle⟩ := ih u ⟨hwxs, hhxs, hlx⟩ hnxs hu
        refine ⟨e, he, ?_⟩
        calc e.1 ≤ pathCost G c xs := hle
        _ ≤ pathCost G c xs + c u y dd := by
            have := hnn u y dd
            linarith
        _ = pathCost G c (xs ++ [y]) := hcost.symm

theorem dijk_step_skip {G : Graph ε} {c : String → String → ε → ℚ} {source : String}
    {visited : List String} {frontier rest : List (ℚ × List String)}
    {d : ℚ} {u : String} {ptail : List String}
    (inv : DijkInv G c source visited frontier)
    (hx : extractMin frontier = some ((d, u :: ptail), rest))
    (hu : u ∈ visited) : DijkInv G c source visited rest := by
  have hsub : ∀ e ∈ rest, e ∈ frontier := fun e he =>
    (extractMin_perm hx).symm.subset (List.mem_cons_of_mem _ he)
  refine ⟨fun e he => inv.entries e (hsub e he), ?_, ?_, inv.visited_nodes,
    inv.visited_nodup⟩
  · intro v hv
    obtain ⟨cv, hopt, hadj⟩ := inv.visited_opt v hv
    refine ⟨cv, hopt, ?_⟩
    intro ve hve hnv
    obtain ⟨e, he, hh, hle⟩ := hadj ve hve hnv
    refine ⟨e, mem_rest_of_extractMin hx he ?_, hh, hle⟩
    intro heq
    rw [heq] at hh
    simp only [List.head?_cons, Option.some.injEq] at hh
    exact hnv (hh ▸ hu)
  · intro hs
    obtain ⟨e, he, hh, hle⟩ := inv.source_cov hs
    refine ⟨e, mem_rest_of_extractMin hx he ?_, hh, hle⟩
    intro heq
    rw [heq] at hh
    simp only [List.head?_cons, Option.some.injEq] at hh
    exact hs (hh ▸ hu)

theorem dijk_step_expand {G : Graph ε} {c : String → String → ε → ℚ} {source : String}
    {visited : List String} {frontier rest : List (ℚ × List String)}
    {d : ℚ} {u : String} {ptail : List String}
    (wf : G.WellFormed) (uniq : G.EdgeUnique) (hnn : ∀ u v d, 0 ≤ c u v d)
    (inv : DijkInv G c source visited frontier)
    (hx : extractMin frontier = some ((d, u :: ptail), rest))
    (hu : u ∉ visited) :
    DijkInv G c source (u :: visited)
      (rest ++ (G.adj u).map fun ve => (d + c u ve.1 ve.2, ve.1 :: u :: ptail)) ∧
    (∀ q, IsPathFromTo G q source u → q.Nodup → d ≤ pathCost G c q) := by
  have hmem : (d, u :: ptail) ∈ frontier := extractMin_mem hx
  obtain ⟨hw, hlast, hcost, htn, hts⟩ := inv.entries _ hmem
  have hdopt : ∀ q, IsPathFromTo G q source u → q.Nodup → d ≤ pathCost G c q := by
    intro q hq hqn
    obtain ⟨e, he, hle⟩ := dijk_cover wf hnn inv q u hq hqn hu
    exact le_trans (extractMin_min hx e he) hle
  have hsub : ∀ e ∈ rest, e ∈ frontier := fun e he =>
    (extractMin_perm hx).symm.subset (List.mem_cons_of_mem _ he)
  have hu_ptail : u ∉ ptail := fun hc => hu (hts u hc)
  refine ⟨⟨?_, ?_, ?_, ?_, ?_⟩, hdopt⟩
  · -- entries
    intro e he
    rcases List.mem_append.mp he with he | he
    · obtain ⟨h1, h2, h3, h4, h5⟩ := inv.entries e (hsub e he)
      exact ⟨h1, h2, h3, h4, fun x hx' => List.mem_cons_of_mem _ (h5 x hx')⟩
    · obtain ⟨⟨w, dd⟩, hadj, heq⟩ := List.mem_map.mp he
      have hfe : G.findEdge u w = some dd := findEdge_of_adj uniq hadj
      subst heq
      refine ⟨?_, ?_, ?_, ?_, ?_⟩
      · show ((G.findEdge w u).isSome && G.isWalk (u :: ptail)) = true
        rw [findEdge_symm, hfe, hw]
        rfl
      · show (w :: u :: ptail).getLast? = some source
        rw [List.getLast?_cons_cons]
        exact hlast
      · show d + c u w dd = pathCost G c (w :: u :: ptail).reverse
        rw [List.reverse_cons,
          pathCost_append_singleton (u := u) (by rw [List.getLast?_reverse]; rfl),
          hfe, ← hcost]
      · show (u :: ptail).Nodup
        exact List.nodup_cons.mpr ⟨hu_ptail, htn⟩
      · show ∀ x ∈ u :: ptail, x ∈ u :: visited
        intro x hx'
        rcases List.mem_cons.mp hx' with hx' | hx'
        · exact hx' ▸ List.mem_cons_self _ _
        · exact List.mem_cons_of_mem _ (hts x hx')
  · -- visited_opt
    intro v hv
    rcases List.mem_cons.mp hv with hv | hv
    · subst hv
      refine ⟨d, hdopt, ?_⟩
      intro ve hve hnv
      refine ⟨(d + c v ve.1 ve.2, ve.1 :: v :: ptail),
        List.mem_append_right _ (List.mem_map.mpr ⟨ve, hve, by rfl⟩), rfl, le_refl _⟩
    · obtain ⟨cv, hopt, hadj⟩ := inv.visited_opt v hv
      refine ⟨cv, hopt, ?_⟩
      intro ve hve hnv
      have hnv' : ve.1 ∉ visited := fun hc => hnv (List.mem_cons_of_mem _ hc)
      obtain ⟨e, he, hh, hle⟩ := hadj ve hve hnv'
      refine ⟨e, List.mem_append_left _ (mem_rest_of_extractMin hx he ?_), hh, hle⟩
      intro heq
      rw [heq] at hh
      simp only [List.head?_cons, Option.some.injEq] at hh
      exact hnv (hh ▸ List.mem_cons_self _ _)
  · -- source_cov
    intro hs
    have hs' : source ∉ visited := fun hc => hs (List.mem_cons_of_mem _ hc)
    obtain ⟨e, he, hh, hle⟩ := inv.source_cov hs'
    refine ⟨e, List.mem_append_left _ (mem_rest_of_extractMin hx he ?_), hh, hle⟩
    intro heq
    rw [heq] at hh
    simp only [List.head?_cons, Option.some.injEq] at hh
    exact hs (hh ▸ List.mem_cons_self _ _)
  · -- visited_nodes
    intro v hv
    rcases List.mem_cons.mp hv with hv | hv
    · exact hv ▸ walk_mem_nodes wf hw u (List.mem_cons_self _ _)
    · exact inv.visited_nodes v hv
  · exact List.nodup_cons.mpr ⟨hu, inv.visited_nodup⟩

theorem dijkstraAux_sound {G : Graph ε} {c : String → String → ε → ℚ}
    {source target : String}
    (wf : G.WellFormed) (uniq : G.EdgeUnique) (hnn : ∀ u v d, 0 ≤ c u v d) :
    ∀ (fuel : ℕ) (visited : List String) (frontier : List (ℚ × List String)),
      DijkInv G c source visited frontier →
      target ∉ visited →
      ∀ {d : ℚ} {p : List String},
        dijkstraAux G c target fuel visited frontier = some (d, p) →
        IsPathFromTo G p source target ∧ p.Nodup ∧ d = pathCost G c p ∧
          ∀ q, IsPathFromTo G q source target → q.Nodup → d ≤ pathCost G c q := by
  intro fuel
  induction fuel with
  | zero =>
    intro visited frontier _ _ d p hres
    simp [dijkstraAux] at hres
  | succ fuel ih =>
    intro visited frontier inv ht d p hres
    rw [dijkstraAux] at hres
    cases hx : extractMin frontier with
    | none => rw [hx] at hres; simp at hres
    | some pr =>
      obtain ⟨⟨d0, path⟩, rest⟩ := pr
      rw [hx] at hres
      cases path with
      | nil => simp at hres
      | cons u ptail =>
        dsimp only at hres
        obtain ⟨hw, hlast, hcost, htn, hts⟩ := inv.entries _ (extractMin_mem hx)
        by_cases hut : u = target
        · rw [if_pos hut] at hres
          simp only [Option.some.injEq, Prod.mk.injEq] at hres
          obtain ⟨hd, hp⟩ := hres
          subst hd
          subst hp
          have hu_nv : u ∉ visited := hut ▸ ht
          refine ⟨⟨(isWalk_reverse wf).mpr hw, ?_, ?_⟩, ?_, hcost, ?_⟩
          · rw [List.head?_reverse]; exact hlast
          · rw [List.getLast?_reverse]; simp [hut]
          · rw [List.nodup_reverse]
            exact List.nodup_cons.mpr ⟨fun hc => hu_nv (hts u hc), htn⟩
          · intro q hq hqn
            obtain ⟨e, he, hle⟩ := dijk_cover wf hnn inv q target hq hqn ht
            exact le_trans (extractMin_min hx e he) hle
        · rw [if_neg hut] at hres
          by_cases hu : u ∈ visited
          · rw [if_pos hu] at hres
            exact ih visited rest (dijk_step_skip inv hx hu) ht hres
          · rw [if_neg hu] at hres
            obtain ⟨inv', _⟩ := dijk_step_expand wf uniq hnn inv hx hu
            have ht' : target ∉ u :: visited := by
              intro hc
              rcases List.mem_cons.mp hc with hc | hc
              · exact hut hc.symm
              · exact ht hc
            exact ih _ _ inv' ht' hres

theorem dijkMeasure_skip {G : Graph ε} {visited : List String}
    {frontier rest : List (ℚ × List String)} {m : ℚ × List String}
    (hx : extractMin frontier = some (m, rest)) :
    dijkMeasure G visited rest + 1 = dijkMeasure G visited frontier := by
  unfold dijkMeasure
  have := extractMin_length hx
  omega

theorem dijkMeasure_expand {G : Graph ε} {visited : List String} {u : String}
    (hn : u ∈ G.nodes) (hv : u ∉ visited)
    {frontier rest : List (ℚ × List String)} {m : ℚ × List String}
    (hx : extractMin frontier = some (m, rest))
    (pushes : List (ℚ × List String)) (hp : pushes.length ≤ G.edges.length) :
    dijkMeasure G (u :: visited) (rest ++ pushes) < dijkMeasure G visited frontier := by
  unfold dijkMeasure
  have hlen := extractMin_length hx
  set A := G.nodes.dedup.filter fun x => decide (x ∉ visited) with hA
  have hmemA : u ∈ A := by
    rw [hA, List.mem_filter]
    exact ⟨List.mem_dedup.mpr hn, by simpa using hv⟩
  have hAnd : A.Nodup := (List.nodup_dedup G.nodes).filter _
  have hstep : (G.nodes.dedup.filter fun x => decide (x ∉ u :: visited)) =
      A.filter fun x => x != u := by
    rw [hA, List.filter_filter]
    apply List.filter_congr
    intro a _
    by_cases h1 : a = u <;> by_cases h2 : a ∈ visited <;>
      simp [h1, h2, List.mem_cons]
  have hlenA : (A.filter fun x => x != u).length = A.length - 1 := by
    rw [← List.Nodup.erase_eq_filter hAnd u]
    exact List.length_erase_of_mem hmemA
  rw [hstep, hlenA]
  have hA1 : 1 ≤ A.length := List.length_pos_of_mem hmemA
  have hmul : (A.length - 1) * (G.edges.length + 1) + (G.edges.length + 1) =
      A.length * (G.edges.length + 1) := by
    have : A.length - 1 + 1 = A.length := by omega
    calc (A.length - 1) * (G.edges.length + 1) + (G.edges.length + 1)
        = (A.length - 1 + 1) * (G.edges.length + 1) := by ring
    _ = A.length * (G.edges.length + 1) := by rw [this]
  simp only [List.length_append]
  omega

theorem dijkstraAux_complete {G : Graph ε} {c : String → String → ε → ℚ}
    {source target : String}
    (wf : G.WellFormed) (uniq : G.EdgeUnique) (hnn : ∀ u v d, 0 ≤ c u v d) :
    ∀ (fuel : ℕ) (visited : List String) (frontier : List (ℚ × List String)),
      DijkInv G c source visited frontier →
      target ∉ visited →
      dijkMeasure G visited frontier < fuel →
      (∃ q, IsPathFromTo G q source target ∧ q.Nodup) →
      (dijkstraAux G c target fuel visited frontier).isSome = true := by
  intro fuel
  induction fuel with
  | zero => intro visited frontier _ _ hm _; omega
  | succ fuel ih =>
    intro visited frontier inv ht hm hconn
    obtain ⟨q0, hq0, hq0n⟩ := hconn
    obtain ⟨e0, he0, _⟩ := dijk_cover wf hnn inv q0 target hq0 hq0n ht
    rw [dijkstraAux]
    cases hx : extractMin frontier with
    | none =>
      rw [extractMin_eq_none] at hx
      rw [hx] at he0
      simp at he0
    | some pr =>
      obtain ⟨⟨d0, path⟩, rest⟩ := pr
      cases path with
      | nil =>
        have := (inv.entries _ (extractMin_mem hx)).1
        exact absurd this (by simp [Graph.isWalk])
      | cons u ptail =>
        dsimp only
        obtain ⟨hw, hlast, hcost, htn, hts⟩ := inv.entries _ (extractMin_mem hx)
        by_cases hut : u = target
        · rw [if_pos hut]; rfl
        · rw [if_neg hut]
          by_cases hu : u ∈ visited
          · rw [if_pos hu]
            have hm' : dijkMeasure G visited rest < fuel := by
              have hskip : dijkMeasure G visited rest + 1 =
                  dijkMeasure G visited frontier := dijkMeasure_skip hx
              omega
            exact ih visited rest (dijk_step_skip inv hx hu) ht hm' ⟨q0, hq0, hq0n⟩
          · rw [if_neg hu]
            obtain ⟨inv', _⟩ := dijk_step_expand wf uniq hnn inv hx hu
            have ht' : target ∉ u :: visited := by
              intro hc
              rcases List.mem_cons.mp hc with hc | hc
              · exact hut hc.symm
              · exact ht hc
            have hun : u ∈ G.nodes := walk_mem_nodes wf hw u (List.mem_cons_self _ _)
            have hp : ((G.adj u).map fun ve =>
                (d0 + c u ve.1 ve.2, ve.1 :: u :: ptail)).length ≤ G.edges.length := by
              rw [List.length_map]
              exact List.length_filterMap_le _ _
            have hm' := dijkMeasure_expand hun hu hx _ hp
            exact ih _ _ inv' ht' (by omega) ⟨q0, hq0, hq0n⟩

theorem dijkstra_init_inv {G : Graph ε} {c : String → String → ε → ℚ}
    {source : String} (hs : source ∈ G.nodes) :
    DijkInv G c source [] [(0, [source])] := by
  refine ⟨?_, ?_, ?_, ?_, ?_⟩
  · intro e he
    simp only [List.mem_singleton] at he
    subst he
    refine ⟨?_, rfl, by simp [pathCost], by simp, by simp⟩
    show G.nodes.contains source = true
    exact List.elem_iff.mpr hs
  · intro v hv; simp at hv
  · intro _
    exact ⟨(0, [source]), List.mem_singleton.mpr rfl, rfl, le_refl _⟩
  · intro v hv; simp at hv
  · simp

theorem dijkstra_init_measure (G : Graph ε) :
    dijkMeasure G [] [(0, [source])] < fuelBound G := by
  unfold dijkMeasure fuelBound
  have h1 : (G.nodes.dedup.filter fun x => decide (x ∉ ([] : List String))) =
      G.nodes.dedup := List.filter_eq_self.mpr (fun a _ => by simp)
  rw [h1]
  have h2 := Nat.mul_le_mul (show G.nodes.dedup.length ≤ G.nodes.dedup.length + 1 by omega)
    (show G.edges.length + 1 ≤ G.edges.length + 2 by omega)
  simp only [List.length_singleton]
  omega

theorem dijkstra_correct {G : Graph ε} {c : String → String → ε → ℚ}
    {source target : String}
    (wf : G.WellFormed) (uniq : G.EdgeUnique) (hnn : ∀ u v d, 0 ≤ c u v d)
    (hs : source ∈ G.nodes)
    (hconn : ∃ q, IsPathFromTo G q source target ∧ q.Nodup) :
    ∃ d p, dijkstra G c source target = some (d, p) ∧
      IsPathFromTo G p source target ∧ p.Nodup ∧ d = pathCost G c p ∧
      ∀ q, IsPathFromTo G q source target → q.Nodup → d ≤ pathCost G c q := by
  have inv0 := dijkstra_init_inv (G := G) (c := c) hs
  have ht : target ∉ ([] : List String) := by simp
  have hcomp := dijkstraAux_complete wf uniq hnn (fuelBound G) [] [(0, [source])]
    inv0 ht (dijkstra_init_measure G) hconn
  obtain ⟨⟨d, p⟩, hres⟩ := Option.isSome_iff_exists.mp hcomp
  have hsound := dijkstraAux_sound wf uniq hnn (fuelBound G) [] [(0, [source])]
    inv0 ht hres
  exact ⟨d, p, hres, hsound⟩

theorem dijkstra_sound {G : Graph ε} {c : String → String → ε → ℚ}
    {source target : String}
    (wf : G.WellFormed) (uniq : G.EdgeUnique) (hnn : ∀ u v d, 0 ≤ c u v d)
    (hs : source ∈ G.nodes) {d : ℚ} {p : List String}
    (hres : dijkstra G c source target = some (d, p)) :
    IsPathFromTo G p source target ∧ p.Nodup ∧ d = pathCost G c p ∧
      ∀ q, IsPathFromTo G q source target → q.Nodup → d ≤ pathCost G c q :=
  dijkstraAux_sound wf uniq hnn (fuelBound G) [] [(0, [source])]
    (dijkstra_init_inv hs) (by simp) hres

/-! Lemmas on longest common prefixes of paths. -/

theorem lcp_take : ∀ xs ys : List String, xs.take (lcp xs ys) = ys.take (lcp xs ys) := by
  intro xs
  induction xs with
  | nil => intro ys; simp [lcp]
  | cons x xs ih =>
    intro ys
    cases ys with
    | nil => simp [lcp]
    | cons y ys =>
      have hl : lcp (x :: xs) (y :: ys) = if x = y then lcp xs ys + 1 else 0 := rfl
      by_cases hxy : x = y
      · rw [hl, if_pos hxy, List.take_succ_cons, List.take_succ_cons, hxy, ih ys]
      · rw [hl, if_neg hxy]
        simp

theorem lcp_le_left : ∀ xs ys : List String, lcp xs ys ≤ xs.length := by
  intro xs
  induction xs with
  | nil => intro ys; simp [lcp]
  | cons x xs ih =>
    intro ys
    cases ys with
    | nil => simp [lcp]
    | cons y ys =>
      show (if x = y then lcp xs ys + 1 else 0) ≤ xs.length + 1
      by_cases hxy : x = y
      · rw [if_pos hxy]; exact Nat.succ_le_succ (ih ys)
      · rw [if_neg hxy]; omega

theorem lcp_comm : ∀ xs ys : List String, lcp xs ys = lcp ys xs := by
  intro xs
  induction xs with
  | nil => intro ys; cases ys <;> simp [lcp]
  | cons x xs ih =>
    intro ys
    cases ys with
    | nil => simp [lcp]
    | cons y ys =>
      show (if x = y then lcp xs ys + 1 else 0) = (if y = x then lcp ys xs + 1 else 0)
      by_cases hxy : x = y
      · rw [if_pos hxy, if_pos hxy.symm, ih ys]
      · rw [if_neg hxy, if_neg (fun h => hxy h.symm)]

theorem lcp_pos_of_head {xs ys : List String} {s : String}
    (hx : xs.head? = some s) (hy : ys.head? = some s) : 1 ≤ lcp xs ys := by
  cases xs with
  | nil => simp at hx
  | cons x xs =>
    cases ys with
    | nil => simp at hy
    | cons y ys =>
      simp only [List.head?_cons, Option.some.injEq] at hx hy
      show 1 ≤ if x = y then lcp xs ys + 1 else 0
      rw [if_pos (by rw [hx, hy])]
      omega

theorem take_eq_le_lcp : ∀ (n : ℕ) (xs ys : List String),
    xs.take n = ys.take n → n ≤ xs.length → n ≤ lcp xs ys := by
  intro n
  induction n with
  | zero => intro xs ys _ _; omega
  | succ n ih =>
    intro xs ys h hn
    cases xs with
    | nil => simp at hn
    | cons x xs =>
      cases ys with
      | nil => simp at h
      | cons y ys =>
        rw [List.take_succ_cons, List.take_succ_cons] at h
        simp only [List.cons.injEq] at h
        obtain ⟨hxy, ht⟩ := h
        show n + 1 ≤ if x = y then lcp xs ys + 1 else 0
        rw [if_pos hxy]
        have := ih xs ys ht (by simpa using hn)
        omega

theorem eq_of_take_eq_self {P Q : List String} {t : String} (hP : P.getLast? = some t)
    (hQ : Q.getLast? = some t) (hQn : Q.Nodup) {n : ℕ} (h : P = Q.take n) : P = Q := by
  by_cases hR : Q.drop n = []
  · have h2 := List.take_append_drop n Q
    rw [hR, List.append_nil] at h2
    rw [h, h2]
  · exfalso
    have hsplit : Q = P ++ Q.drop n := by
      rw [h]
      exact (List.take_append_drop n Q).symm
    have htP : t ∈ P := List.mem_of_mem_getLast? (by simp [hP])
    have htR : t ∈ Q.drop n := by
      rw [hsplit, List.getLast?_append_of_ne_nil _ hR] at hQ
      exact List.mem_of_mem_getLast? (by simp [hQ])
    exact (List.disjoint_of_nodup_append (hsplit ▸ hQn)) htP htR

theorem take_eq_lt_length {P Q : List String} {t : String} (hP : P.getLast? = some t)
    (hQ : Q.getLast? = some t) (hQn : Q.Nodup) (hne : P ≠ Q) {n : ℕ}
    (h : P.take n = Q.take n) : n < P.length := by
  by_contra hle
  push_neg at hle
  rw [List.take_of_length_le hle] at h
  exact hne (eq_of_take_eq_self hP hQ hQn h)

theorem lcp_lt_left {P Q : List String} {t : String} (hP : P.getLast? = some t)
    (hQ : Q.getLast? = some t) (hQn : Q.Nodup) (hne : P ≠ Q) :
    lcp P Q < P.length :=
  take_eq_lt_length hP hQ hQn hne (lcp_take P Q)

theorem lcp_lt_right {P Q : List String} {t : String} (hP : P.getLast? = some t)
    (hQ : Q.getLast? = some t) (hPn : P.Nodup) (hne : P ≠ Q) :
    lcp P Q < Q.length := by
  rw [lcp_comm]
  exact take_eq_lt_length hQ hP hPn (fun h => hne h.symm) (lcp_take Q P)

theorem le_foldl_lcp (Q : List String) :
    ∀ (l : List (List String)) (init : ℕ),
      init ≤ l.foldl (fun m A => max m (lcp A Q)) init := by
  intro l
  induction l with
  | nil => intro init; exact le_refl _
  | cons B l ih =>
    intro init
    calc init ≤ max init (lcp B Q) := le_max_left _ _
    _ ≤ _ := ih _

theorem maxLcp_pos (listA : List (List String)) (Q : List String) :
    1 ≤ maxLcp listA Q :=
  le_foldl_lcp Q listA 1

theorem lcp_le_maxLcp {listA : List (List String)} {Q A : List String}
    (hA : A ∈ listA) : lcp A Q ≤ maxLcp listA Q := by
  unfold maxLcp
  have general : ∀ (l : List (List String)) (init : ℕ), A ∈ l →
      lcp A Q ≤ l.foldl (fun m A => max m (lcp A Q)) init := by
    intro l
    induction l with
    | nil => intro init h; simp at h
    | cons B l ih =>
      intro init h
      rcases List.mem_cons.mp h with h | h
      · subst h
        calc lcp A Q ≤ max init (lcp A Q) := le_max_right _ _
        _ ≤ _ := le_foldl_lcp Q l _
      · exact ih _ h
  exact general listA 1 hA

theorem maxLcp_append_singleton (listA : List (List String)) (P Q : List String) :
    maxLcp (listA ++ [P]) Q = max (maxLcp listA Q) (lcp P Q) := by
  unfold maxLcp
  rw [List.foldl_concat]

/-! Lemmas on reduced graphs (spur searches of Yen's algorithm). -/

theorem findEdge_eq_of_mem {G : Graph ε} (uniq : G.EdgeUnique) {u v a b : String}
    {d : ε} (hmem : (a, b, d) ∈ G.edges)
    (hab : (a = u ∧ b = v) ∨ (a = v ∧ b = u)) : G.findEdge u v = some d := by
  apply findEdge_of_adj uniq
  unfold Graph.adj
  rw [List.mem_filterMap]
  refine ⟨(a, b, d), hmem, ?_⟩
  rcases hab with ⟨ha, hb⟩ | ⟨ha, hb⟩
  · simp [ha, hb]
  · by_cases huv : v = u
    · have ha' : a = u := by rw [ha, huv]
      have hb' : b = v := by rw [hb, huv]
      simp [ha', hb']
    · have ha1 : ¬ a = u := by rw [ha]; exact huv
      rw [if_neg ha1, if_pos hb, ha]

theorem reduceGraph_edges_sub {G : Graph ε} {iN : List String}
    {iE : List (String × String)} {e : String × String × ε}
    (h : e ∈ (reduceGraph G iN iE).edges) : e ∈ G.edges :=
  List.mem_of_mem_filter h

theorem reduceGraph_nodes_mem {G : Graph ε} {iN : List String}
    {iE : List (String × String)} {x : String} :
    x ∈ (reduceGraph G iN iE).nodes ↔ x ∈ G.nodes ∧ x ∉ iN := by
  unfold reduceGraph
  rw [List.mem_filter]
  simp

theorem reduceGraph_edge_cond {G : Graph ε} {iN : List String}
    {iE : List (String × String)} {e : String × String × ε}
    (h : e ∈ (reduceGraph G iN iE).edges) :
    e.1 ∉ iN ∧ e.2.1 ∉ iN ∧ (e.1, e.2.1) ∉ iE ∧ (e.2.1, e.1) ∉ iE := by
  unfold reduceGraph at h
  have := List.of_mem_filter h
  simp at this
  tauto

theorem reduceGraph_mem_of {G : Graph ε} {iN : List String}
    {iE : List (String × String)} {e : String × String × ε} (hmem : e ∈ G.edges)
    (h1 : e.1 ∉ iN) (h2 : e.2.1 ∉ iN) (h3 : (e.1, e.2.1) ∉ iE)
    (h4 : (e.2.1, e.1) ∉ iE) : e ∈ (reduceGraph G iN iE).edges := by
  unfold reduceGraph
  rw [List.mem_filter]
  refine ⟨hmem, ?_⟩
  simp [h1, h2, h3, h4]

theorem reduceGraph_wf {G : Graph ε} {iN : List String} {iE : List (String × String)}
    (wf : G.WellFormed) : (reduceGraph G iN iE).WellFormed := by
  intro e he
  have hmem := reduceGraph_edges_sub he
  have hcond := reduceGraph_edge_cond he
  have := wf e hmem
  rw [reduceGraph_nodes_mem, reduceGraph_nodes_mem]
  exact ⟨⟨this.1, hcond.1⟩, ⟨this.2, hcond.2.1⟩⟩

theorem reduceGraph_uniq {G : Graph ε} {iN : List String} {iE : List (String × String)}
    (uniq : G.EdgeUnique) : (reduceGraph G iN iE).EdgeUnique := by
  intro e₁ h₁ e₂ h₂ hrel
  exact uniq e₁ (reduceGraph_edges_sub h₁) e₂ (reduceGraph_edges_sub h₂) hrel

theorem findEdge_reduce_to {G : Graph ε} (uniq : G.EdgeUnique) {iN : List String}
    {iE : List (String × String)} {u v : String} {d : ε}
    (h : (reduceGraph G iN iE).findEdge u v = some d) : G.findEdge u v = some d := by
  obtain ⟨a, b, hmem, hab⟩ := findEdge_some_mem h
  exact findEdge_eq_of_mem uniq (reduceGraph_edges_sub hmem) hab

theorem findEdge_reduce_cond {G : Graph ε} {iN : List String}
    {iE : List (String × String)} {u v : String} {d : ε}
    (h : (reduceGraph G iN iE).findEdge u v = some d) :
    u ∉ iN ∧ v ∉ iN ∧ (u, v) ∉ iE ∧ (v, u) ∉ iE := by
  obtain ⟨a, b, hmem, hab⟩ := findEdge_some_mem h
  have hcond := reduceGraph_edge_cond hmem
  rcases hab with ⟨ha, hb⟩ | ⟨ha, hb⟩ <;> subst ha <;> subst hb
  · exact hcond
  · exact ⟨hcond.2.1, hcond.1, hcond.2.2.2, hcond.2.2.1⟩

theorem findEdge_reduce_of {G : Graph ε} (uniq : G.EdgeUnique) {iN : List String}
    {iE : List (String × String)} {u v : String} {d : ε}
    (h : G.findEdge u v = some d) (h1 : u ∉ iN) (h2 : v ∉ iN)
    (h3 : (u, v) ∉ iE) (h4 : (v, u) ∉ iE) :
    (reduceGraph G iN iE).findEdge u v = some d := by
  obtain ⟨a, b, hmem, hab⟩ := findEdge_some_mem h
  have hmem' : (a, b, d) ∈ (reduceGraph G iN iE).edges := by
    rcases hab with ⟨ha, hb⟩ | ⟨ha, hb⟩ <;> subst ha <;> subst hb
    · exact reduceGraph_mem_of hmem h1 h2 h3 h4
    · exact reduceGraph_mem_of hmem h2 h1 h4 h3
  exact findEdge_eq_of_mem (reduceGraph_uniq uniq) hmem' hab

theorem isWalk_reduce_to {G : Graph ε} (uniq : G.EdgeUnique) {iN : List String}
    {iE : List (String × String)} {p : List String}
    (h : (reduceGraph G iN iE).isWalk p = true) : G.isWalk p = true := by
  induction p with
  | nil => simpa [Graph.isWalk] using h
  | cons u rest ih =>
    cases rest with
    | nil =>
      have : u ∈ (reduceGraph G iN iE).nodes := List.elem_iff.mp h
      have := (reduceGraph_nodes_mem.mp this).1
      exact List.elem_iff.mpr this
    | cons v rest' =>
      have h' : ((reduceGraph G iN iE).findEdge u v).isSome = true ∧
          (reduceGraph G iN iE).isWalk (v :: rest') = true := by
        simpa [Graph.isWalk, Bool.and_eq_true] using h
      obtain ⟨d, hd⟩ := Option.isSome_iff_exists.mp h'.1
      show ((G.findEdge u v).isSome && G.isWalk (v :: rest')) = true
      rw [findEdge_reduce_to uniq hd, ih h'.2]
      rfl

theorem walk_reduce_avoids {G : Graph ε} {iN : List String}
    {iE : List (String × String)} {p : List String}
    (h : (reduceGraph G iN iE).isWalk p = true) : ∀ x ∈ p, x ∉ iN := by
  induction p with
  | nil => simp
  | cons u rest ih =>
    cases rest with
    | nil =>
      intro x hx
      simp only [List.mem_singleton] at hx
      subst hx
      exact (reduceGraph_nodes_mem.mp (List.elem_iff.mp h)).2
    | cons v rest' =>
      have h' : ((reduceGraph G iN iE).findEdge u v).isSome = true ∧
          (reduceGraph G iN iE).isWalk (v :: rest') = true := by
        simpa [Graph.isWalk, Bool.and_eq_true] using h
      obtain ⟨d, hd⟩ := Option.isSome_iff_exists.mp h'.1
      intro x hx
      rcases List.mem_cons.mp hx with hx | hx
      · subst hx
        exact (findEdge_reduce_cond hd).1
      · exact ih h'.2 x hx

theorem pathCost_reduce {G : Graph ε} (uniq : G.EdgeUnique) {iN : List String}
    {iE : List (String × String)} {c : String → String → ε → ℚ} {p : List String}
    (h : (reduceGraph G iN iE).isWalk p = true) :
    pathCost (reduceGraph G iN iE) c p = pathCost G c p := by
  induction p with
  | nil => rfl
  | cons u rest ih =>
    cases rest with
    | nil => rfl
    | cons v rest' =>
      have h' : ((reduceGraph G iN iE).findEdge u v).isSome = true ∧
          (reduceGraph G iN iE).isWalk (v :: rest') = true := by
        simpa [Graph.isWalk, Bool.and_eq_true] using h
      obtain ⟨d, hd⟩ := Option.isSome_iff_exists.mp h'.1
      rw [pathCost_cons_cons, pathCost_cons_cons, hd, findEdge_reduce_to uniq hd,
        ih h'.2]

theorem isWalk_reduce_of {G : Graph ε} (uniq : G.EdgeUnique) {iN : List String}
    {iE : List (String × String)} {p : List String} (h : G.isWalk p = true)
    (hn : ∀ x ∈ p, (x ∈ G.nodes → x ∈ (reduceGraph G iN iE).nodes))
    (hN : ∀ x ∈ p, x ∉ iN)
    (hE : List.Chain' (fun x y => (x, y) ∉ iE ∧ (y, x) ∉ iE) p) :
    (reduceGraph G iN iE).isWalk p = true := by
  induction p with
  | nil => simpa [Graph.isWalk] using h
  | cons u rest ih =>
    cases rest with
    | nil =>
      have hu : u ∈ G.nodes := List.elem_iff.mp h
      exact List.elem_iff.mpr (hn u (by simp) hu)
    | cons v rest' =>
      have h' : (G.findEdge u v).isSome = true ∧ G.isWalk (v :: rest') = true := by
        simpa [Graph.isWalk, Bool.and_eq_true] using h
      obtain ⟨d, hd⟩ := Option.isSome_iff_exists.mp h'.1
      have hpair := (List.chain'_cons.mp hE).1
      have hfe := findEdge_reduce_of uniq hd (hN u (by simp))
        (hN v (by simp)) hpair.1 hpair.2
      show (((reduceGraph G iN iE).findEdge u v).isSome &&
        (reduceGraph G iN iE).isWalk (v :: rest')) = true
      rw [hfe, ih h'.2 (fun x hx => hn x (List.mem_cons_of_mem _ hx))
        (fun x hx => hN x (List.mem_cons_of_mem _ hx)) (List.chain'_cons.mp hE).2]
      rfl

/-! Lemmas on the accumulated ignore-edge set. -/

theorem mem_ignoreEdgesAt {listA : List (List String)} {P : List String} {i : ℕ}
    {a b : String} (h : (a, b) ∈ ignoreEdgesAt listA P i) :
    ∃ j A, 1 ≤ j ∧ j ≤ i ∧ A ∈ listA ∧ A.take j = P.take j ∧
      A.get? (j - 1) = some a ∧ A.get? j = some b := by
  unfold ignoreEdgesAt at h
  rw [List.mem_flatMap] at h
  obtain ⟨j, hj, hmem⟩ := h
  rw [List.mem_range'] at hj
  obtain ⟨m, hm, hjm⟩ := hj
  rw [List.mem_filterMap] at hmem
  obtain ⟨A, hA, hval⟩ := hmem
  by_cases ht : A.take j = P.take j
  · rw [if_pos ht] at hval
    cases hga : A.get? (j - 1) with
    | none => rw [hga] at hval; simp at hval
    | some a' =>
      cases hgb : A.get? j with
      | none => rw [hga, hgb] at hval; simp at hval
      | some b' =>
        rw [hga, hgb] at hval
        simp only [Option.some.injEq, Prod.mk.injEq] at hval
        exact ⟨j, A, by omega, by omega, hA, ht, by rw [hga, hval.1],
          by rw [hgb, hval.2]⟩
  · rw [if_neg ht] at hval
    simp at hval

theorem ignoreEdgesAt_mem_of {listA : List (List String)} {P A : List String}
    {i j : ℕ} {a b : String} (hj1 : 1 ≤ j) (hji : j ≤ i) (hA : A ∈ listA)
    (ht : A.take j = P.take j) (ha : A.get? (j - 1) = some a)
    (hb : A.get? j = some b) : (a, b) ∈ ignoreEdgesAt listA P i := by
  unfold ignoreEdgesAt
  rw [List.mem_flatMap]
  refine ⟨j, ?_, ?_⟩
  · rw [List.mem_range']
    exact ⟨j - 1, by omega, by omega⟩
  · rw [List.mem_filterMap]
    refine ⟨A, hA, ?_⟩
    rw [if_pos ht, ha, hb]

/-! Lemmas on spur candidates. -/

theorem take_succ_of_get? {P : List String} {n : ℕ} {a : String}
    (h : P.get? n = some a) : P.take (n + 1) = P.take n ++ [a] := by
  have h' : P[n]? = some a := by rwa [List.get?_eq_getElem?] at h
  rw [List.take_succ, h']
  rfl

theorem mem_take_of_get? {P : List String} {m n : ℕ} {a : String}
    (hmn : m < n) (h : P.get? m = some a) : a ∈ P.take n := by
  have h' : (P.take n).get? m = some a := by
    rw [List.get?_eq_getElem?, List.getElem?_take, if_pos hmn, ← List.get?_eq_getElem?]
    exact h
  exact List.get?_mem h'

theorem get?_take_eq {P C : List String} {m n : ℕ} (h : C.take n = P.take n)
    (hmn : m < n) : C.get? m = P.get? m := by
  rw [List.get?_eq_getElem?, List.get?_eq_getElem?,
    ← if_pos (c := m < n) hmn (t := P[m]?) (e := (none : Option String)),
    ← List.getElem?_take, ← h, List.getElem?_take, if_pos hmn]

theorem take_drop_disjoint {P : List String} (hPn : P.Nodup) (n : ℕ) :
    ∀ a ∈ P.take n, a ∉ P.drop n := by
  have h : (P.take n ++ P.drop n).Nodup := by
    rw [List.take_append_drop]
    exact hPn
  exact List.disjoint_of_nodup_append h

theorem drop_ne_nil {P : List String} {n : ℕ} (h : n < P.length) : P.drop n ≠ [] := by
  intro hc
  have := List.length_drop n P
  rw [hc] at this
  simp at this
  omega

theorem getLast?_drop_eq {P : List String} {n : ℕ} (h : n < P.length) :
    (P.drop n).getLast? = P.getLast? := by
  conv_rhs => rw [← List.take_append_drop n P]
  rw [List.getLast?_append_of_ne_nil _ (drop_ne_nil h)]

theorem head?_of_take_eq {C P : List String} {i : ℕ} (h : C.take i = P.take i)
    (hi : 1 ≤ i) : C.head? = P.head? := by
  rw [List.head?_eq_getElem?, List.head?_eq_getElem?, ← List.get?_eq_getElem?,
    ← List.get?_eq_getElem?]
  exact get?_take_eq h (by omega)

theorem spurCandidate_sound {G : Graph ε} {w : ε → ℚ} {source target : String}
    {listA : List (List String)} {P : List String} {i : ℕ}
    (wf : G.WellFormed) (uniq : G.EdgeUnique) (hwn : ∀ d, 0 ≤ w d)
    (hP : IsPathFromTo G P source target) (hPn : P.Nodup)
    (hi1 : 1 ≤ i) (hi2 : i < P.length)
    {cst : ℚ} {C : List String}
    (hres : spurCandidate G w target listA P i = some (cst, C)) :
    IsPathFromTo G C source target ∧ C.Nodup ∧
      cst = pathCost G (wCost w) C ∧ C.take i = P.take i ∧
      ∃ b', C.get? i = some b' ∧
        ∀ A ∈ listA, A.take i = P.take i → A.get? i ≠ some b' := by
  obtain ⟨n, rfl⟩ : ∃ n, i = n + 1 := ⟨i - 1, by omega⟩
  unfold spurCandidate at hres
  simp only [Nat.add_sub_cancel] at hres
  cases hsn : P.get? n with
  | none => rw [hsn] at hres; simp at hres
  | some sn =>
    rw [hsn] at hres
    dsimp only at hres
    cases hdij : dijkstra (reduceGraph G (P.take n) (ignoreEdgesAt listA P (n + 1)))
        (fun _ _ d => w d) sn target with
    | none => rw [hdij] at hres; simp at hres
    | some sp =>
      obtain ⟨sd, spur⟩ := sp
      rw [hdij] at hres
      dsimp only at hres
      simp only [Option.some.injEq, Prod.mk.injEq] at hres
      obtain ⟨hcst, hCeq⟩ := hres
      have hnlen : n < P.length := by
        obtain ⟨h, _⟩ := List.get?_eq_some.mp hsn
        exact h
      have hsn_drop : sn ∈ P.drop n := by
        rw [List.drop_eq_getElem_cons hnlen]
        obtain ⟨h, hg⟩ := List.get?_eq_some.mp hsn
        rw [show P[n] = P.get ⟨n, h⟩ from rfl, hg]
        exact List.mem_cons_self _ _
      have hsn_notin : sn ∉ P.take n := fun hc =>
        take_drop_disjoint hPn n sn hc hsn_drop
      have hsnG : sn ∈ G.nodes :=
        walk_mem_nodes wf hP.1 sn (List.get?_mem hsn)
      have wf' := @reduceGraph_wf _ _ (P.take n)
        (ignoreEdgesAt listA P (n + 1)) wf
      have uniq' := @reduceGraph_uniq _ _ (P.take n)
        (ignoreEdgesAt listA P (n + 1)) uniq
      have hsnG' : sn ∈ (reduceGraph G (P.take n) (ignoreEdgesAt listA P (n + 1))).nodes :=
        reduceGraph_nodes_mem.mpr ⟨hsnG, hsn_notin⟩
      obtain ⟨hspath, hspn, hsd, _⟩ :=
        dijkstra_sound wf' uniq' (fun _ _ d => hwn d) hsnG' hdij
      obtain ⟨hsw, hsh, hsl⟩ := hspath
      -- the spur is nonempty and starts at the spur node
      cases spur with
      | nil => simp at hsh
      | cons s0 tl =>
        have hs0 : sn = s0 := by
          simp only [List.head?_cons, Option.some.injEq] at hsh
          exact hsh.symm
        subst hs0
        -- the spur has a second node: the spur node is not the target
        have hsn_ne_t : sn ≠ target := by
          intro hc
          have htmem : target ∈ P.drop (n + 1) := by
            have := getLast?_drop_eq (P := P) (n := n + 1) hi2
            rw [hP.2.2] at this
            exact List.mem_of_mem_getLast? (by simp [this])
          have hsmem : sn ∈ P.take (n + 1) := mem_take_of_get? (by omega) hsn
          exact take_drop_disjoint hPn (n + 1) sn hsmem (hc ▸ htmem)
        cases tl with
        | nil =>
          exfalso
          simp only [List.getLast?_singleton, Option.some.injEq] at hsl
          exact hsn_ne_t hsl
        | cons b' tl' =>
          -- facts about the first spur edge
          have hfe : ((reduceGraph G (P.take n) (ignoreEdgesAt listA P (n + 1))).findEdge
              sn b').isSome = true := by
            have h' : (((reduceGraph G (P.take n)
                  (ignoreEdgesAt listA P (n + 1))).findEdge sn b').isSome &&
                (reduceGraph G (P.take n)
                  (ignoreEdgesAt listA P (n + 1))).isWalk (b' :: tl')) = true := hsw
            exact ((Bool.and_eq_true _ _).mp h').1
          obtain ⟨d₀, hd₀⟩ := Option.isSome_iff_exists.mp hfe
          have hconds := findEdge_reduce_cond hd₀
          have havoid := walk_reduce_avoids hsw
          have htakeP : P.take (n + 1) = P.take n ++ [sn] := take_succ_of_get? hsn
          have hlen_take : (P.take n).length = n := by
            rw [List.length_take]
            omega
          -- (d) prefix agreement
          have hCtake : C.take (n + 1) = P.take (n + 1) := by
            rw [← hCeq, List.take_append_eq_append_take,
              List.take_of_length_le (by omega), hlen_take]
            have h1 : n + 1 - n = 1 := by omega
            rw [h1, htakeP]
            rfl
          -- walk structure of the candidate
          have hw1 : G.isWalk (P.take n ++ [sn]) = true := by
            rw [← htakeP]
            exact isWalk_take wf hP.1 (by omega)
          have hw2 : G.isWalk (sn :: b' :: tl') = true := isWalk_reduce_to uniq hsw
          have hwC : G.isWalk C = true := by
            rw [← hCeq]
            exact isWalk_glue wf hw1 hw2
          have hspur_ne : (sn :: b' :: tl' : List String) ≠ [] := by simp
          have hClast : C.getLast? = some target := by
            rw [← hCeq, List.getLast?_append_of_ne_nil _ hspur_ne]
            exact hsl
          have hChead : C.head? = some source := by
            rw [head?_of_take_eq hCtake (by omega)]
            exact hP.2.1
          -- (b) the candidate is loopless
          have hCnodup : C.Nodup := by
            rw [← hCeq]
            rw [List.nodup_append]
            refine ⟨List.Nodup.sublist (List.take_sublist n P) hPn, hspn, ?_⟩
            intro a haT haS
            exact havoid a haS haT
          -- (c) the recorded cost is the path cost
          have hCcost : cst = pathCost G (wCost w) C := by
            rw [← hcst, ← hCeq, pathCost_append_cons, ← htakeP, hsd,
              pathCost_reduce uniq hsw]
            exact rfl
          -- (e) the second spur node and the ignore-edge veto
          have hCget : C.get? (n + 1) = some b' := by
            rw [← hCeq, List.get?_eq_getElem?,
              List.getElem?_append_right (by omega), hlen_take]
            have h1 : n + 1 - n = 1 := by omega
            rw [h1]
            simp
          refine ⟨⟨hwC, hChead, hClast⟩, hCnodup, hCcost, hCtake, b', hCget, ?_⟩
          intro A hA htA hgA
          have hgAn : A.get? n = some sn := by
            rw [get?_take_eq htA (by omega)]
            exact hsn
          have hmemE : (sn, b') ∈ ignoreEdgesAt listA P (n + 1) :=
            ignoreEdgesAt_mem_of (by omega) (le_refl _) hA htA
              (by rwa [Nat.add_sub_cancel]) hgA
          exact hconds.2.2.1 hmemE

theorem spurCandidate_complete {G : Graph ε} {w : ε → ℚ} {source target : String}
    {listA : List (List String)} {P Q : List String} {j : ℕ}
    (wf : G.WellFormed) (uniq : G.EdgeUnique) (hwn : ∀ d, 0 ≤ w d)
    (hQ : IsPathFromTo G Q source target) (hQn : Q.Nodup)
    (hj1 : 1 ≤ j) (hjP : j < P.length) (hjQ : j < Q.length)
    (htake : P.take j = Q.take j)
    (hveto : ∀ A ∈ listA, A.take (j + 1) ≠ Q.take (j + 1)) :
    ∃ cst C, spurCandidate G w target listA P j = some (cst, C) ∧
      cst ≤ pathCost G (wCost w) Q ∧ C.take j = Q.take j := by
  obtain ⟨n, rfl⟩ : ∃ n, j = n + 1 := ⟨j - 1, by omega⟩
  have hnQ : n < Q.length := by omega
  cases hQget : Q.get? n with
  | none => rw [List.get?_eq_none] at hQget; omega
  | some sn =>
  have hPget : P.get? n = some sn := by
    rw [get?_take_eq htake (by omega)]
    exact hQget
  have htaken : P.take n = Q.take n := by
    have h1 : P.take n = (P.take (n + 1)).take n := by
      rw [List.take_take]
      congr 1
      omega
    rw [h1, htake, List.take_take]
    congr 1
    omega
  have hSeq : Q.drop n = sn :: Q.drop (n + 1) := by
    rw [List.drop_eq_getElem_cons hnQ]
    obtain ⟨h, hg⟩ := List.get?_eq_some.mp hQget
    rw [show Q[n] = Q.get ⟨n, h⟩ from rfl, hg]
  have hsn_drop : sn ∈ Q.drop n := by
    rw [hSeq]
    exact List.mem_cons_self _ _
  have hsn_take : sn ∈ Q.take (n + 1) := mem_take_of_get? (by omega) hQget
  cases hQget1 : Q.get? (n + 1) with
  | none => rw [List.get?_eq_none] at hQget1; omega
  | some y0 =>
  have hy0_drop1 : y0 ∈ Q.drop (n + 1) := by
    rw [List.drop_eq_getElem_cons hjQ]
    obtain ⟨h, hg⟩ := List.get?_eq_some.mp hQget1
    rw [show Q[n+1] = Q.get ⟨n+1, h⟩ from rfl, hg]
    exact List.mem_cons_self _ _
  -- characterize the ignored pairs
  have hmain : ∀ a b : String, (a, b) ∈ ignoreEdgesAt listA P (n + 1) →
      a ∈ Q.take n ∨ (a = sn ∧ ∃ A ∈ listA, A.take (n + 1) = Q.take (n + 1) ∧
        A.get? (n + 1) = some b) := by
    intro a b hab
    obtain ⟨j', A, hj'1, hj'le, hA, htA, ha, hb⟩ := mem_ignoreEdgesAt hab
    obtain ⟨m, rfl⟩ : ∃ m, j' = m + 1 := ⟨j' - 1, by omega⟩
    rw [Nat.add_sub_cancel] at ha
    have hPa : P.get? m = some a := by
      rw [← get?_take_eq htA (by omega)]
      exact ha
    by_cases hm : m < n
    · left
      rw [← htaken]
      exact mem_take_of_get? hm hPa
    · have hmn : m = n := by omega
      subst hmn
      right
      rw [hPget] at hPa
      refine ⟨(Option.some.inj hPa).symm, A, hA, ?_, hb⟩
      rw [htA, htake]
  -- the suffix of Q is a valid walk of the reduced graph
  have hSwalk : G.isWalk (Q.drop n) = true := isWalk_drop wf hQ.1 hnQ
  have hSavoid : ∀ x ∈ Q.drop n, x ∉ P.take n := by
    intro x hx hc
    rw [htaken] at hc
    exact take_drop_disjoint hQn n x hc hx
  have hSnodup : (Q.drop n).Nodup := List.Nodup.sublist (List.drop_sublist n Q) hQn
  have hchain : List.Chain' (fun x y =>
      (x, y) ∉ ignoreEdgesAt listA P (n + 1) ∧
      (y, x) ∉ ignoreEdgesAt listA P (n + 1)) (Q.drop n) := by
    rw [hSeq, List.chain'_cons']
    constructor
    · intro y hy
      have hy0 : y0 = y := by
        rw [List.drop_eq_getElem_cons hjQ] at hy
        obtain ⟨h, hg⟩ := List.get?_eq_some.mp hQget1
        rw [show Q[n+1] = Q.get ⟨n+1, h⟩ from rfl, hg] at hy
        simpa using hy
      subst hy0
      constructor
      · intro hc
        rcases hmain _ _ hc with hc' | ⟨_, A, hA, htQA, hbA⟩
        · exact take_drop_disjoint hQn n sn hc' hsn_drop
        · apply hveto A hA
          rw [take_succ_of_get? hbA, take_succ_of_get? hQget1, htQA]
      · intro hc
        rcases hmain _ _ hc with hc' | ⟨hcy, _⟩
        · exact take_drop_disjoint hQn n y0 hc'
            (by rw [hSeq]; exact List.mem_cons_of_mem _ hy0_drop1)
        · exact take_drop_disjoint hQn (n + 1) sn hsn_take (hcy ▸ hy0_drop1)
    · apply List.Pairwise.chain'
      apply List.pairwise_of_forall_mem_list
      intro x hx y hy
      have hx' : x ∉ Q.take n := by
        intro hc
        have : x ∈ Q.drop n := by rw [hSeq]; exact List.mem_cons_of_mem _ hx
        exact take_drop_disjoint hQn n x hc this
      have hx1 : x ≠ sn := by
        intro hc
        rw [hc] at hx
        exact take_drop_disjoint hQn (n + 1) sn hsn_take hx
      have hy' : y ∉ Q.take n := by
        intro hc
        have : y ∈ Q.drop n := by rw [hSeq]; exact List.mem_cons_of_mem _ hy
        exact take_drop_disjoint hQn n y hc this
      have hy1 : y ≠ sn := by
        intro hc
        rw [hc] at hy
        exact take_drop_disjoint hQn (n + 1) sn hsn_take hy
      constructor
      · intro hc
        rcases hmain _ _ hc with hc' | ⟨hc', _⟩
        · exact hx' hc'
        · exact hx1 hc'
      · intro hc
        rcases hmain _ _ hc with hc' | ⟨hc', _⟩
        · exact hy' hc'
        · exact hy1 hc'
  have hSwalk' : (reduceGraph G (P.take n)
      (ignoreEdgesAt listA P (n + 1))).isWalk (Q.drop n) = true := by
    apply isWalk_reduce_of uniq hSwalk
    · intro x hx hgx
      exact reduceGraph_nodes_mem.mpr ⟨hgx, hSavoid x hx⟩
    · exact hSavoid
    · exact hchain
  -- run the spur search
  have wf' := @reduceGraph_wf _ _ (P.take n)
    (ignoreEdgesAt listA P (n + 1)) wf
  have uniq' := @reduceGraph_uniq _ _ (P.take n)
    (ignoreEdgesAt listA P (n + 1)) uniq
  have hsnG' : sn ∈ (reduceGraph G (P.take n) (ignoreEdgesAt listA P (n + 1))).nodes := by
    apply reduceGraph_nodes_mem.mpr
    refine ⟨walk_mem_nodes wf hQ.1 sn (List.get?_mem hQget), ?_⟩
    intro hc
    rw [htaken] at hc
    exact take_drop_disjoint hQn n sn hc hsn_drop
  have hSpath : IsPathFromTo (reduceGraph G (P.take n)
      (ignoreEdgesAt listA P (n + 1))) (Q.drop n) sn target := by
    refine ⟨hSwalk', ?_, ?_⟩
    · rw [hSeq]; rfl
    · rw [getLast?_drop_eq hnQ]
      exact hQ.2.2
  obtain ⟨sd, spath, hdij, hspathP, hspn, hsd, hopt⟩ :=
    dijkstra_correct wf' uniq' (fun _ _ d => hwn d) hsnG'
      ⟨Q.drop n, hSpath, hSnodup⟩
  have hsdle : sd ≤ pathCost G (wCost w) (Q.drop n) := by
    have := hopt (Q.drop n) hSpath hSnodup
    rwa [pathCost_reduce uniq hSwalk'] at this
  -- assemble the candidate
  refine ⟨pathCost G (wCost w) (P.take (n + 1)) + sd, P.take n ++ spath, ?_, ?_, ?_⟩
  · unfold spurCandidate
    simp only [Nat.add_sub_cancel]
    rw [hPget]
    dsimp only
    rw [hdij]
    rfl
  · have hsplit : pathCost G (wCost w) (Q.take (n + 1)) +
        pathCost G (wCost w) (Q.drop n) = pathCost G (wCost w) Q := by
      conv_rhs => rw [← List.take_append_drop n Q]
      rw [hSeq, pathCost_append_cons, ← take_succ_of_get? hQget]
    rw [htake]
    linarith
  · obtain ⟨hsw2, hsh2, _⟩ := hspathP
    cases spath with
    | nil => simp at hsh2
    | cons s0 stl =>
      have hs0 : s0 = sn := by
        simp only [List.head?_cons, Option.some.injEq] at hsh2
        exact hsh2
      rw [List.take_append_eq_append_take,
        List.take_of_length_le (by rw [List.length_take]; omega)]
      have hlen_take : (P.take n).length = n := by
        rw [List.length_take]
        omega
      rw [hlen_take]
      have h1 : n + 1 - n = 1 := by omega
      rw [h1, ← htake, take_succ_of_get? hPget, hs0]
      rfl

/-! Lemmas on the candidate buffer. -/

theorem mem_bufferPush {buffer : List (ℚ × List String)} {c : ℚ} {p : List String}
    {e : ℚ × List String} (h : e ∈ bufferPush buffer c p) :
    e ∈ buffer ∨ e = (c, p) := by
  unfold bufferPush at h
  by_cases hx : buffer.any fun e => decide (e.2 = p)
  · rw [if_pos hx] at h
    exact .inl h
  · rw [if_neg hx] at h
    rcases List.mem_append.mp h with h | h
    · exact .inl h
    · right
      simpa using h

theorem bufferPush_sub {buffer : List (ℚ × List String)} {c : ℚ} {p : List String}
    {e : ℚ × List String} (h : e ∈ buffer) : e ∈ bufferPush buffer c p := by
  unfold bufferPush
  by_cases hx : buffer.any fun e => decide (e.2 = p)
  · rwa [if_pos hx]
  · rw [if_neg hx]
    exact List.mem_append_left _ h

theorem bufferPush_path_mem {buffer : List (ℚ × List String)} {c : ℚ}
    {p : List String} : p ∈ (bufferPush buffer c p).map Prod.snd := by
  unfold bufferPush
  by_cases hx : buffer.any fun e => decide (e.2 = p)
  · rw [if_pos hx]
    obtain ⟨e, he, hep⟩ := List.any_eq_true.mp hx
    simp only [decide_eq_true_eq] at hep
    exact List.mem_map.mpr ⟨e, he, hep⟩
  · rw [if_neg hx, List.map_append]
    exact List.mem_append_right _ (by simp)

theorem bufferPush_path_mono {buffer : List (ℚ × List String)} {c : ℚ}
    {p q : List String} (h : q ∈ buffer.map Prod.snd) :
    q ∈ (bufferPush buffer c p).map Prod.snd := by
  unfold bufferPush
  by_cases hx : buffer.any fun e => decide (e.2 = p)
  · rwa [if_pos hx]
  · rw [if_neg hx, List.map_append]
    exact List.mem_append_left _ h

theorem bufferPush_nodup {buffer : List (ℚ × List String)} {c : ℚ} {p : List String}
    (h : (buffer.map Prod.snd).Nodup) :
    ((bufferPush buffer c p).map Prod.snd).Nodup := by
  unfold bufferPush
  by_cases hx : buffer.any fun e => decide (e.2 = p)
  · rwa [if_pos hx]
  · rw [if_neg hx, List.map_append]
    have hp : p ∉ buffer.map Prod.snd := by
      intro hc
      obtain ⟨e, he, hep⟩ := List.mem_map.mp hc
      apply hx
      rw [List.any_eq_true]
      exact ⟨e, he, by simp [hep]⟩
    simp [List.nodup_append, h, hp]

theorem foldl_cand_sub {G : Graph ε} {w : ε → ℚ} {target : String}
    {listA : List (List String)} {P : List String} :
    ∀ (L : List ℕ) (b : List (ℚ × List String)) (e : ℚ × List String), e ∈ b →
      e ∈ L.foldl (candStep G w target listA P) b := by
  intro L
  induction L with
  | nil => intro b e he; exact he
  | cons i L ih =>
    intro b e he
    rw [List.foldl_cons]
    apply ih
    unfold candStep
    cases spurCandidate G w target listA P i with
    | none => exact he
    | some cd => exact bufferPush_sub he

theorem foldl_cand_mem {G : Graph ε} {w : ε → ℚ} {target : String}
    {listA : List (List String)} {P : List String} :
    ∀ (L : List ℕ) (b : List (ℚ × List String)) (e : ℚ × List String),
      e ∈ L.foldl (candStep G w target listA P) b →
      e ∈ b ∨ ∃ i ∈ L, spurCandidate G w target listA P i = some e := by
  intro L
  induction L with
  | nil => intro b e he; exact .inl he
  | cons i L ih =>
    intro b e he
    rw [List.foldl_cons] at he
    rcases ih _ e he with h | ⟨i', hi', hsp⟩
    · unfold candStep at h
      cases hsp : spurCandidate G w target listA P i with
      | none => rw [hsp] at h; exact .inl h
      | some cd =>
        rw [hsp] at h
        rcases mem_bufferPush h with h | h
        · exact .inl h
        · right
          refine ⟨i, List.mem_cons_self _ _, ?_⟩
          rw [hsp, h]
    · exact .inr ⟨i', List.mem_cons_of_mem _ hi', hsp⟩

theorem foldl_cand_path_mono {G : Graph ε} {w : ε → ℚ} {target : String}
    {listA : List (List String)} {P : List String} :
    ∀ (L : List ℕ) (b : List (ℚ × List String)) (q : List String),
      q ∈ b.map Prod.snd →
      q ∈ (L.foldl (candStep G w target listA P) b).map Prod.snd := by
  intro L
  induction L with
  | nil => intro b q hq; exact hq
  | cons i L ih =>
    intro b q hq
    rw [List.foldl_cons]
    apply ih
    unfold candStep
    cases spurCandidate G w target listA P i with
    | none => exact hq
    | some cd => exact bufferPush_path_mono hq

theorem foldl_cand_path_mem {G : Graph ε} {w : ε → ℚ} {target : String}
    {listA : List (List String)} {P : List String} {i : ℕ} {cd : ℚ × List String}
    (hsp : spurCandidate G w target listA P i = some cd) :
    ∀ (L : List ℕ) (b : List (ℚ × List String)), i ∈ L →
      cd.2 ∈ (L.foldl (candStep G w target listA P) b).map Prod.snd := by
  intro L
  induction L with
  | nil => intro b h; simp at h
  | cons i' L ih =>
    intro b hmem
    rw [List.foldl_cons]
    rcases List.mem_cons.mp hmem with h | h
    · subst h
      apply foldl_cand_path_mono
      unfold candStep
      rw [hsp]
      exact bufferPush_path_mem
    · exact ih _ h

theorem foldl_cand_nodup {G : Graph ε} {w : ε → ℚ} {target : String}
    {listA : List (List String)} {P : List String} :
    ∀ (L : List ℕ) (b : List (ℚ × List String)),
      (b.map Prod.snd).Nodup →
      ((L.foldl (candStep G w target listA P) b).map Prod.snd).Nodup := by
  intro L
  induction L with
  | nil => intro b h; exact h
  | cons i L ih =>
    intro b h
    rw [List.foldl_cons]
    apply ih
    unfold candStep
    cases spurCandidate G w target listA P i with
    | none => exact h
    | some cd => exact bufferPush_nodup h

theorem yen_step {G : Graph ε} {w : ε → ℚ} {source target : String}
    {listA : List (List String)} {buffer rest : List (ℚ × List String)}
    {c : ℚ} {P : List String}
    (wf : G.WellFormed) (uniq : G.EdgeUnique) (hwn : ∀ d, 0 ≤ w d)
    (inv : YenInv G w source target listA buffer)
    (hx : extractMin buffer = some ((c, P), rest)) :
    YenInv G w source target (listA ++ [P])
      (pushCandidates G w target (listA ++ [P]) P rest) ∧
    P ∉ listA ∧ IsPathFromTo G P source target ∧ P.Nodup ∧
    c = pathCost G (wCost w) P ∧
    ∀ Q, IsPathFromTo G Q source target → Q.Nodup → Q ∉ listA →
      c ≤ pathCost G (wCost w) Q := by
  have hmem : (c, P) ∈ buffer := extractMin_mem hx
  obtain ⟨hPpath, hPn, hPc⟩ := inv.bpaths _ hmem
  have hPfresh : P ∉ listA := inv.bfresh _ hmem
  have hmin : ∀ Q, IsPathFromTo G Q source target → Q.Nodup → Q ∉ listA →
      c ≤ pathCost G (wCost w) Q := by
    intro Q hQ hQn hQA
    obtain ⟨e, he, hec, _⟩ := inv.cover Q hQ hQn hQA
    exact le_trans (extractMin_min hx e he) hec
  have hsub : ∀ e ∈ rest, e ∈ buffer := fun e he =>
    (extractMin_perm hx).symm.subset (List.mem_cons_of_mem _ he)
  have hperm2 : (buffer.map Prod.snd).Perm (P :: rest.map Prod.snd) := by
    have := (extractMin_perm hx).map Prod.snd
    simpa using this
  have hrest_ne : ∀ e ∈ rest, e.2 ≠ P := by
    have hnd : (P :: rest.map Prod.snd).Nodup := hperm2.nodup_iff.mp inv.bnodup
    intro e he hc
    have hm : e.2 ∈ rest.map Prod.snd := List.mem_map.mpr ⟨e, he, rfl⟩
    rw [hc] at hm
    exact (List.nodup_cons.mp hnd).1 hm
  have hrest_nodup : (rest.map Prod.snd).Nodup :=
    (List.nodup_cons.mp (hperm2.nodup_iff.mp inv.bnodup)).2
  have hapaths' : ∀ A ∈ listA ++ [P], IsPathFromTo G A source target ∧ A.Nodup := by
    intro A hA
    rcases List.mem_append.mp hA with hA | hA
    · exact inv.apaths A hA
    · simp only [List.mem_singleton] at hA
      subst hA
      exact ⟨hPpath, hPn⟩
  have hnew_mem : ∀ e ∈ pushCandidates G w target (listA ++ [P]) P rest,
      e ∈ rest ∨ ∃ i, 1 ≤ i ∧ i < P.length ∧
        spurCandidate G w target (listA ++ [P]) P i = some e := by
    intro e he
    rcases foldl_cand_mem _ _ _ he with h | ⟨i, hi, hsp⟩
    · exact .inl h
    · right
      rw [List.mem_range'] at hi
      obtain ⟨k, hk, hik⟩ := hi
      exact ⟨i, by omega, by omega, hsp⟩
  have hbpaths' : ∀ e ∈ pushCandidates G w target (listA ++ [P]) P rest,
      IsPathFromTo G e.2 source target ∧ e.2.Nodup ∧
        e.1 = pathCost G (wCost w) e.2 := by
    intro e he
    rcases hnew_mem e he with h | ⟨i, hi1, hi2, hsp⟩
    · exact inv.bpaths e (hsub e h)
    · obtain ⟨h1, h2, h3, _, _⟩ :=
        spurCandidate_sound wf uniq hwn hPpath hPn hi1 hi2 hsp
      exact ⟨h1, h2, h3⟩
  have hbfresh' : ∀ e ∈ pushCandidates G w target (listA ++ [P]) P rest,
      e.2 ∉ listA ++ [P] := by
    intro e he
    rcases hnew_mem e he with h | ⟨i, hi1, hi2, hsp⟩
    · intro hc
      rcases List.mem_append.mp hc with hc | hc
      · exact inv.bfresh e (hsub e h) hc
      · simp only [List.mem_singleton] at hc
        exact hrest_ne e h hc
    · obtain ⟨_, _, _, htakeC, b', hgetC, hveto⟩ :=
        spurCandidate_sound wf uniq hwn hPpath hPn hi1 hi2 hsp
      intro hc
      exact hveto e.2 hc htakeC hgetC
  have hbnodup' : ((pushCandidates G w target (listA ++ [P]) P rest).map
      Prod.snd).Nodup := foldl_cand_nodup _ _ hrest_nodup
  have hcover' : ∀ Q, IsPathFromTo G Q source target → Q.Nodup →
      Q ∉ listA ++ [P] →
      ∃ e ∈ pushCandidates G w target (listA ++ [P]) P rest,
        e.1 ≤ pathCost G (wCost w) Q ∧
        e.2.take (maxLcp (listA ++ [P]) Q) = Q.take (maxLcp (listA ++ [P]) Q) := by
    intro Q hQ hQn hQA'
    have hQA : Q ∉ listA := fun hc => hQA' (List.mem_append_left _ hc)
    have hQP : Q ≠ P := fun hc => hQA' (by rw [hc]; exact List.mem_append_right _ (by simp))
    obtain ⟨e, he, hec, het⟩ := inv.cover Q hQ hQn hQA
    rw [maxLcp_append_singleton]
    by_cases hreg : e.2 ≠ P ∧ lcp P Q ≤ maxLcp listA Q
    · obtain ⟨hne, hle⟩ := hreg
      rw [max_eq_left hle]
      refine ⟨e, ?_, hec, het⟩
      apply foldl_cand_sub
      exact mem_rest_of_extractMin hx he (fun hc => hne (by rw [hc]))
    · have hPlast : P.getLast? = some target := hPpath.2.2
      have hQlast : Q.getLast? = some target := hQ.2.2
      have hPQ : P ≠ Q := fun hc => hQP hc.symm
      have hj_ge : maxLcp listA Q ≤ lcp P Q := by
        by_cases hcase : e.2 = P
        · rw [hcase] at het
          have hlt : maxLcp listA Q < P.length :=
            take_eq_lt_length hPlast hQlast hQn hPQ het
          exact take_eq_le_lcp _ _ _ het (by omega)
        · push_neg at hreg
          exact le_of_lt (hreg hcase)
      rw [max_eq_right hj_ge]
      have hj1 : 1 ≤ lcp P Q := lcp_pos_of_head hPpath.2.1 hQ.2.1
      have hjP : lcp P Q < P.length := lcp_lt_left hPlast hQlast hQn hPQ
      have hjQ : lcp P Q < Q.length := lcp_lt_right hPlast hQlast hPn hPQ
      have htakePQ : P.take (lcp P Q) = Q.take (lcp P Q) := lcp_take P Q
      have hveto : ∀ A ∈ listA ++ [P],
          A.take (lcp P Q + 1) ≠ Q.take (lcp P Q + 1) := by
        intro A hA hc
        obtain ⟨hApath, _⟩ := hapaths' A hA
        by_cases hlenA : lcp P Q + 1 ≤ A.length
        · have hgt := take_eq_le_lcp _ _ _ hc hlenA
          have hle := lcp_le_maxLcp (Q := Q) hA
          rw [maxLcp_append_singleton, max_eq_right hj_ge] at hle
          omega
        · push_neg at hlenA
          rw [List.take_of_length_le (by omega)] at hc
          have hAQ : A = Q := eq_of_take_eq_self hApath.2.2 hQlast hQn hc
          rw [hAQ] at hA
          exact hQA' hA
      obtain ⟨cst, C, hres, hcle, hCtake⟩ :=
        spurCandidate_complete wf uniq hwn hQ hQn hj1 hjP hjQ htakePQ hveto
      have hCmem : C ∈ (pushCandidates G w target (listA ++ [P]) P rest).map
          Prod.snd := by
        apply foldl_cand_path_mem hres
        rw [List.mem_range']
        exact ⟨lcp P Q - 1, by omega, by omega⟩
      obtain ⟨e', he', he'C⟩ := List.mem_map.mp hCmem
      obtain ⟨_, _, hcostC, _, _⟩ :=
        spurCandidate_sound wf uniq hwn hPpath hPn hj1 hjP hres
      refine ⟨e', he', ?_, ?_⟩
      · rw [(hbpaths' e' he').2.2, he'C, ← hcostC]
        exact hcle
      · rw [he'C]
        exact hCtake
  exact ⟨⟨hbpaths', hbnodup', hbfresh', hapaths', hcover'⟩, hPfresh, hPpath, hPn,
    hPc, hmin⟩

theorem take_one_eq_of_head {xs ys : List String} {s : String}
    (hx : xs.head? = some s) (hy : ys.head? = some s) : xs.take 1 = ys.take 1 := by
  cases xs with
  | nil => simp at hx
  | cons a xs =>
    cases ys with
    | nil => simp at hy
    | cons b ys =>
      simp only [List.head?_cons, Option.some.injEq] at hx hy
      simp [hx, hy]

theorem kLoop_correct {G : Graph ε} {w : ε → ℚ} {source target : String} {k : ℤ}
    (wf : G.WellFormed) (uniq : G.EdgeUnique) (hwn : ∀ d, 0 ≤ w d) :
    ∀ (fuel : ℕ) (acc : List (List String)) (buffer : List (ℚ × List String)),
      YenInv G w source target acc buffer →
      acc.Nodup →
      List.Pairwise (fun p q => pathCost G (wCost w) p ≤ pathCost G (wCost w) q) acc →
      (∀ a ∈ acc, ∀ Q, IsPathFromTo G Q source target → Q.Nodup → Q ∉ acc →
        pathCost G (wCost w) a ≤ pathCost G (wCost w) Q) →
      (acc.length : ℤ) < k →
      k.toNat - acc.length < fuel →
      (∀ p ∈ kLoop G w target k fuel acc buffer,
          IsPathFromTo G p source target ∧ p.Nodup) ∧
      (kLoop G w target k fuel acc buffer).Nodup ∧
      List.Pairwise (fun p q => pathCost G (wCost w) p ≤ pathCost G (wCost w) q)
        (kLoop G w target k fuel acc buffer) ∧
      (∀ a ∈ kLoop G w target k fuel acc buffer, ∀ Q,
          IsPathFromTo G Q source target → Q.Nodup →
          Q ∉ kLoop G w target k fuel acc buffer →
          pathCost G (wCost w) a ≤ pathCost G (wCost w) Q) ∧
      ((kLoop G w target k fuel acc buffer).length : ℤ) ≤ k ∧
      ((acc ≠ [] ∨ buffer ≠ []) → kLoop G w target k fuel acc buffer ≠ []) := by
  intro fuel
  induction fuel with
  | zero =>
    intro acc buffer _ _ _ _ hlt hfuel
    omega
  | succ fuel ih =>
    intro acc buffer inv haccn haccp haccm hlt hfuel
    rw [kLoop]
    cases hx : extractMin buffer with
    | none =>
      dsimp only
      have hbe : buffer = [] := extractMin_eq_none.mp hx
      refine ⟨fun p hp => inv.apaths p hp, haccn, haccp, haccm, by omega, ?_⟩
      intro hne
      rcases hne with hne | hne
      · exact hne
      · exact absurd hbe hne
    | some pr =>
      obtain ⟨⟨c, P⟩, rest⟩ := pr
      dsimp only
      obtain ⟨inv', hPfresh, hPpath, hPn, hPc, hPmin⟩ := yen_step wf uniq hwn inv hx
      have haccn' : (acc ++ [P]).Nodup := by
        rw [List.nodup_append]
        refine ⟨haccn, by simp, ?_⟩
        intro a ha hc
        simp only [List.mem_singleton] at hc
        subst hc
        exact hPfresh ha
      have haccp' : List.Pairwise
          (fun p q => pathCost G (wCost w) p ≤ pathCost G (wCost w) q) (acc ++ [P]) := by
        rw [List.pairwise_append]
        refine ⟨haccp, by simp, ?_⟩
        intro a ha b hb
        simp only [List.mem_singleton] at hb
        rw [hb]
        exact haccm a ha P hPpath hPn hPfresh
      have haccm' : ∀ a ∈ acc ++ [P], ∀ Q, IsPathFromTo G Q source target →
          Q.Nodup → Q ∉ acc ++ [P] →
          pathCost G (wCost w) a ≤ pathCost G (wCost w) Q := by
        intro a ha Q hQ hQn hQA'
        have hQA : Q ∉ acc := fun hc => hQA' (List.mem_append_left _ hc)
        rcases List.mem_append.mp ha with ha | ha
        · exact haccm a ha Q hQ hQn hQA
        · simp only [List.mem_singleton] at ha
          subst ha
          rw [← hPc]
          exact hPmin Q hQ hQn hQA
      by_cases hstop : ((acc ++ [P]).length : ℤ) ≥ k
      · rw [if_pos hstop]
        refine ⟨fun p hp => inv'.apaths p hp, haccn',
          haccp', haccm', ?_, ?_⟩
        · simp only [List.length_append, List.length_singleton]
          push_cast
          omega
        · intro _
          simp
      · rw [if_neg hstop]
        push_neg at hstop
        have hfuel' : k.toNat - (acc ++ [P]).length < fuel := by
          simp only [List.length_append, List.length_singleton] at hstop ⊢
          omega
        have hres := ih (acc ++ [P]) (pushCandidates G w target (acc ++ [P]) P rest)
          inv' haccn' haccp' haccm' hstop hfuel'
        refine ⟨hres.1, hres.2.1, hres.2.2.1, hres.2.2.2.1, hres.2.2.2.2.1, ?_⟩
        intro _
        exact hres.2.2.2.2.2 (by simp)

theorem k_shortest_paths_correct {G : Graph ε} {w : ε → ℚ} {source target : String}
    {k : ℤ}
    (wf : G.WellFormed) (uniq : G.EdgeUnique) (hwn : ∀ d, 0 ≤ w d) (hk : 1 ≤ k)
    (hs : source ∈ G.nodes)
    (hconn : ∃ q, IsPathFromTo G q source target ∧ q.Nodup) :
    ∃ out, k_shortest_paths G source target w k = some out ∧
      out ≠ [] ∧ (out.length : ℤ) ≤ k ∧
      (∀ p ∈ out, IsPathFromTo G p source target ∧ p.Nodup) ∧
      out.Nodup ∧
      List.Pairwise (fun p q => pathCost G (wCost w) p ≤ pathCost G (wCost w) q) out ∧
      ∀ p₀ ∈ out.head?, ∀ Q, IsPathFromTo G Q source target → Q.Nodup →
        pathCost G (wCost w) p₀ ≤ pathCost G (wCost w) Q := by
  obtain ⟨d0, p0, hdij, hp0, hp0n, hd0, hopt⟩ :=
    dijkstra_correct (c := wCost w) wf uniq (fun _ _ d => hwn d) hs hconn
  have inv0 : YenInv G w source target [] [(d0, p0)] := by
    refine ⟨?_, by simp, by simp, by simp, ?_⟩
    · intro e he
      simp only [List.mem_singleton] at he
      subst he
      exact ⟨hp0, hp0n, hd0⟩
    · intro Q hQ hQn _
      refine ⟨(d0, p0), List.mem_singleton.mpr rfl, hopt Q hQ hQn, ?_⟩
      show p0.take (maxLcp [] Q) = Q.take (maxLcp [] Q)
      have hm : maxLcp [] Q = 1 := rfl
      rw [hm]
      exact take_one_eq_of_head hp0.2.1 hQ.2.1
  have hrun := kLoop_correct (k := k) wf uniq hwn (k.toNat + 1) [] [(d0, p0)]
    inv0 (by simp) (by simp) (by simp) (by simpa using hk) (by simp)
  refine ⟨kLoop G w target k (k.toNat + 1) [] [(d0, p0)], ?_, ?_, hrun.2.2.2.2.1,
    hrun.1, hrun.2.1, hrun.2.2.1, ?_⟩
  · have hdij' : dijkstra G (fun _ _ d => w d) source target = some (d0, p0) := hdij
    unfold k_shortest_paths
    rw [hdij']
  · exact hrun.2.2.2.2.2 (by simp)
  · intro p₀ h0 Q hQ hQn
    cases hout : kLoop G w target k (k.toNat + 1) [] [(d0, p0)] with
    | nil => rw [hout] at h0; simp at h0
    | cons a tail =>
      rw [hout] at h0
      simp only [List.head?_cons, Option.mem_def, Option.some.injEq] at h0
      subst h0
      by_cases hQmem : Q ∈ kLoop G w target k (k.toNat + 1) [] [(d0, p0)]
      · rw [hout] at hQmem
        rcases List.mem_cons.mp hQmem with h | h
        · rw [h]
        · have hpw := hrun.2.2.1
          rw [hout] at hpw
          exact (List.pairwise_cons.mp hpw).1 Q h
      · exact hrun.2.2.2.1 a (by rw [hout]; exact List.mem_cons_self _ _) Q hQ hQn hQmem

/-! The penalized-graph view computes with the penalized cost function:
a simulation between the search on a graph with mapped edge data and the
search on the base graph. -/

theorem filterMap_adj_map {ε' : Type} (g : ε → ε') (u : String) :
    ∀ l : List (String × String × ε),
      ((l.map fun e => (e.1, e.2.1, g e.2.2)).filterMap fun e =>
          if e.1 = u then some (e.2.1, e.2.2)
          else if e.2.1 = u then some (e.1, e.2.2) else none) =
        (l.filterMap fun e =>
          if e.1 = u then some (e.2.1, e.2.2)
          else if e.2.1 = u then some (e.1, e.2.2) else none).map
          fun ve => (ve.1, g ve.2) := by
  intro l
  induction l with
  | nil => rfl
  | cons e l ih =>
    simp only [List.map_cons, List.filterMap_cons]
    by_cases h1 : e.1 = u
    · simp only [h1, if_true]
      rw [List.map_cons, ih]
    · simp only [h1, if_false]
      by_cases h2 : e.2.1 = u
      · simp only [h2, if_true]
        rw [List.map_cons, ih]
      · simp only [h2, if_false]
        exact ih

theorem adj_mapEdges {ε' : Type} {G : Graph ε} {g : ε → ε'} (u : String) :
    (Graph.mk G.nodes (G.edges.map fun e => (e.1, e.2.1, g e.2.2))).adj u =
      (G.adj u).map fun ve => (ve.1, g ve.2) := by
  unfold Graph.adj
  exact filterMap_adj_map g u G.edges

theorem dijkstraAux_mapEdges {ε' : Type} {G : Graph ε} {g : ε → ε'}
    {c : String → String → ε → ℚ} {c' : String → String → ε' → ℚ}
    (hcomp : ∀ u v d, c' u v (g d) = c u v d) (target : String) :
    ∀ (fuel : ℕ) (visited : List String) (frontier : List (ℚ × List String)),
      dijkstraAux (Graph.mk G.nodes (G.edges.map fun e => (e.1, e.2.1, g e.2.2)))
          c' target fuel visited frontier =
        dijkstraAux G c target fuel visited frontier := by
  intro fuel
  induction fuel with
  | zero => intro visited frontier; rfl
  | succ fuel ih =>
    intro visited frontier
    rw [dijkstraAux, dijkstraAux]
    cases hx : extractMin frontier with
    | none => rfl
    | some pr =>
      obtain ⟨⟨d, path⟩, rest⟩ := pr
      cases path with
      | nil => rfl
      | cons u ptail =>
        dsimp only
        by_cases hut : u = target
        · rw [if_pos hut, if_pos hut]
        · rw [if_neg hut, if_neg hut]
          by_cases hu : u ∈ visited
          · rw [if_pos hu, if_pos hu]
            exact ih visited rest
          · rw [if_neg hu, if_neg hu]
            rw [adj_mapEdges u, List.map_map]
            have hmaps : ((fun ve : String × ε' => (d + c' u ve.1 ve.2, ve.1 :: u :: ptail)) ∘
                fun ve : String × ε => (ve.1, g ve.2)) =
                fun ve : String × ε => (d + c u ve.1 ve.2, ve.1 :: u :: ptail) := by
              funext ve
              simp [Function.comp, hcomp]
            rw [hmaps]
            exact ih _ _

theorem dijkstra_mapEdges {ε' : Type} {G : Graph ε} {g : ε → ε'}
    {c : String → String → ε → ℚ} {c' : String → String → ε' → ℚ}
    (hcomp : ∀ u v d, c' u v (g d) = c u v d) (source target : String) :
    dijkstra (Graph.mk G.nodes (G.edges.map fun e => (e.1, e.2.1, g e.2.2)))
        c' source target = dijkstra G c source target := by
  unfold dijkstra
  rw [dijkstraAux_mapEdges hcomp]
  congr 1
  unfold fuelBound
  simp

theorem build_penalized_graph_eq (G : Graph EdgeData) (active : Option FMap) :
    build_penalized_graph G active = Graph.mk G.nodes
      (G.edges.map fun e => (e.1, e.2.1,
        (e.2.2, e.2.2.length_m * (1 + congestion_penalty active e.2.2.eid)))) := rfl

theorem dijkstra_penalized (G : Graph EdgeData) (active : Option FMap)
    (source target : String) :
    dijkstra (build_penalized_graph G active) (fun _ _ d => d.2) source target =
      dijkstra G (penCost active) source target := by
  have hcomp : ∀ (u v : String) (d : EdgeData),
      (fun (_ _ : String) (dd : EdgeData × ℚ) => dd.2) u v
        ((fun d : EdgeData =>
          (d, d.length_m * (1 + congestion_penalty active d.eid))) d) =
      penCost active u v d := fun _ _ _ => rfl
  rw [build_penalized_graph_eq]
  exact dijkstra_mapEdges hcomp source target

theorem k_shortest_one {G : Graph ε} {w : ε → ℚ} {source target : String}
    {d0 : ℚ} {p0 : List String}
    (h : dijkstra G (fun _ _ d => w d) source target = some (d0, p0)) :
    k_shortest_paths G source target w 1 = some [p0] := by
  unfold k_shortest_paths
  rw [h]
  dsimp only
  rw [kLoop]
  have hmin : extractMin [(d0, p0)] = some ((d0, p0), []) := rfl
  rw [hmin]
  simp

/-! Congruence of the searches in the cost function: two cost functions that
agree on the stored edges (in both traversal directions) drive the searches
identically, which lets nonnegativity hypotheses be stated on the graph's
edges only. -/

theorem findEdge_cost_agree {G : Graph ε} {c c' : String → String → ε → ℚ}
    (h : ∀ e ∈ G.edges, c e.1 e.2.1 e.2.2 = c' e.1 e.2.1 e.2.2 ∧
        c e.2.1 e.1 e.2.2 = c' e.2.1 e.1 e.2.2)
    {u v : String} {d : ε} (hf : G.findEdge u v = some d) :
    c u v d = c' u v d := by
  obtain ⟨a, b, hmem, hab⟩ := findEdge_some_mem hf
  rcases hab with ⟨ha, hb⟩ | ⟨ha, hb⟩
  · have hthis : c a b d = c' a b d := (h (a, b, d) hmem).1
    subst ha; subst hb
    exact hthis
  · have hthis : c b a d = c' b a d := (h (a, b, d) hmem).2
    subst ha; subst hb
    exact hthis

theorem adj_cost_agree {G : Graph ε} {c c' : String → String → ε → ℚ}
    (h : ∀ e ∈ G.edges, c e.1 e.2.1 e.2.2 = c' e.1 e.2.1 e.2.2 ∧
        c e.2.1 e.1 e.2.2 = c' e.2.1 e.1 e.2.2)
    {u : String} : ∀ ve ∈ G.adj u, c u ve.1 ve.2 = c' u ve.1 ve.2 := by
  intro ve hve
  obtain ⟨v, d⟩ := ve
  rcases adj_mem_cases hve with hm | hm
  · exact (h (u, v, d) hm).1
  · exact (h (v, u, d) hm).2

theorem pathCost_congr {G : Graph ε} {c c' : String → String → ε → ℚ}
    (h : ∀ e ∈ G.edges, c e.1 e.2.1 e.2.2 = c' e.1 e.2.1 e.2.2 ∧
        c e.2.1 e.1 e.2.2 = c' e.2.1 e.1 e.2.2) :
    ∀ p, pathCost G c p = pathCost G c' p := by
  intro p
  induction p with
  | nil => rfl
  | cons u rest ih =>
    cases rest with
    | nil => rfl
    | cons v rest' =>
      rw [pathCost_cons_cons, pathCost_cons_cons, ih]
      cases hf : G.findEdge u v with
      | none => rfl
      | some d =>
        dsimp only
        rw [findEdge_cost_agree h hf]

theorem dijkstraAux_congr {G : Graph ε} {c c' : String → String → ε → ℚ}
    (h : ∀ e ∈ G.edges, c e.1 e.2.1 e.2.2 = c' e.1 e.2.1 e.2.2 ∧
        c e.2.1 e.1 e.2.2 = c' e.2.1 e.1 e.2.2) (target : String) :
    ∀ (fuel : ℕ) (visited : List String) (frontier : List (ℚ × List String)),
      dijkstraAux G c target fuel visited frontier =
        dijkstraAux G c' target fuel visited frontier := by
  intro fuel
  induction fuel with
  | zero => intro visited frontier; rfl
  | succ fuel ih =>
    intro visited frontier
    rw [dijkstraAux, dijkstraAux]
    cases hx : extractMin frontier with
    | none => rfl
    | some pr =>
      obtain ⟨⟨d, path⟩, rest⟩ := pr
      cases path with
      | nil => rfl
      | cons u ptail =>
        dsimp only
        by_cases hut : u = target
        · rw [if_pos hut, if_pos hut]
        · rw [if_neg hut, if_neg hut]
          by_cases hu : u ∈ visited
          · rw [if_pos hu, if_pos hu]
            exact ih visited rest
          · rw [if_neg hu, if_neg hu]
            have hmap : ((G.adj u).map fun ve => (d + c u ve.1 ve.2, ve.1 :: u :: ptail)) =
                (G.adj u).map fun ve => (d + c' u ve.1 ve.2, ve.1 :: u :: ptail) := by
              apply List.map_congr_left
              intro ve hve
              rw [adj_cost_agree h ve hve]
            rw [hmap]
            exact ih _ _

theorem dijkstra_congr {G : Graph ε} {c c' : String → String → ε → ℚ}
    (h : ∀ e ∈ G.edges, c e.1 e.2.1 e.2.2 = c' e.1 e.2.1 e.2.2 ∧
        c e.2.1 e.1 e.2.2 = c' e.2.1 e.1 e.2.2) (source target : String) :
    dijkstra G c source target = dijkstra G c' source target := by
  unfold dijkstra
  exact dijkstraAux_congr h target (fuelBound G) [] [(0, [source])]

theorem spurCandidate_congr {G : Graph ε} {w w' : ε → ℚ}
    (hw : ∀ e ∈ G.edges, w e.2.2 = w' e.2.2) (target : String)
    (listA : List (List String)) (P : List String) (i : ℕ) :
    spurCandidate G w target listA P i = spurCandidate G w' target listA P i := by
  unfold spurCandidate
  cases hg : P.get? (i - 1) with
  | none => rfl
  | some spurNode =>
    dsimp only
    have hdijeq : dijkstra (reduceGraph G (P.take (i - 1)) (ignoreEdgesAt listA P i))
        (fun _ _ d => w d) spurNode target =
      dijkstra (reduceGraph G (P.take (i - 1)) (ignoreEdgesAt listA P i))
        (fun _ _ d => w' d) spurNode target :=
      dijkstra_congr (fun e he =>
        ⟨hw e (reduceGraph_edges_sub he), hw e (reduceGraph_edges_sub he)⟩) _ _
    have hpceq : pathCost G (fun _ _ d => w d) (P.take i) =
        pathCost G (fun _ _ d => w' d) (P.take i) :=
      pathCost_congr (fun e he => ⟨hw e he, hw e he⟩) _
    rw [hdijeq, hpceq]

theorem candStep_congr {G : Graph ε} {w w' : ε → ℚ}
    (hw : ∀ e ∈ G.edges, w e.2.2 = w' e.2.2) (target : String)
    (listA : List (List String)) (P : List String) :
    candStep G w target listA P = candStep G w' target listA P := by
  funext b i
  unfold candStep
  rw [spurCandidate_congr hw]

theorem pushCandidates_congr {G : Graph ε} {w w' : ε → ℚ}
    (hw : ∀ e ∈ G.edges, w e.2.2 = w' e.2.2) (target : String)
    (listA : List (List String)) (P : List String)
    (buffer : List (ℚ × List String)) :
    pushCandidates G w target listA P buffer =
      pushCandidates G w' target listA P buffer := by
  unfold pushCandidates
  rw [candStep_congr hw]

theorem kLoop_congr {G : Graph ε} {w w' : ε → ℚ}
    (hw : ∀ e ∈ G.edges, w e.2.2 = w' e.2.2) (target : String) (k : ℤ) :
    ∀ (fuel : ℕ) (acc : List (List String)) (buffer : List (ℚ × List String)),
      kLoop G w target k fuel acc buffer = kLoop G w' target k fuel acc buffer := by
  intro fuel
  induction fuel with
  | zero => intro acc buffer; rfl
  | succ fuel ih =>
    intro acc buffer
    rw [kLoop, kLoop]
    cases hx : extractMin buffer with
    | none => rfl
    | some pr =>
      obtain ⟨⟨c, P⟩, rest⟩ := pr
      dsimp only
      by_cases hstop : ((acc ++ [P]).length : ℤ) ≥ k
      · rw [if_pos hstop, if_pos hstop]
      · rw [if_neg hstop, if_neg hstop, pushCandidates_congr hw]
        exact ih _ _

theorem k_shortest_congr {G : Graph ε} {w w' : ε → ℚ}
    (hw : ∀ e ∈ G.edges, w e.2.2 = w' e.2.2) (source target : String) (k : ℤ) :
    k_shortest_paths G source target w k = k_shortest_paths G source target w' k := by
  unfold k_shortest_paths
  have hdijeq : dijkstra G (fun _ _ d => w d) source target =
      dijkstra G (fun _ _ d => w' d) source target :=
    dijkstra_congr (fun e he => ⟨hw e he, hw e he⟩) source target
  rw [hdijeq]
  cases hdp : dijkstra G (fun _ _ d => w' d) source target with
  | none => rfl
  | some dp =>
    dsimp only
    rw [kLoop_congr hw]

/-! The congestion penalty's range, and nonnegativity of the derived costs. -/

theorem congestion_penalty_mem (active : Option FMap) (eid : String) :
    congestion_penalty active eid = 0 ∨ congestion_penalty active eid = 3 / 10 ∨
      congestion_penalty active eid = 7 / 10 := by
  unfold congestion_penalty
  dsimp only
  cases hf : assocFind (active.getD []) eid with
  | none => left; rfl
  | some f =>
    dsimp only
    by_cases h1 : f.pred_flow / max f.capacity 1 < 1 / 2
    · rw [if_pos h1]; left; rfl
    · rw [if_neg h1]
      by_cases h2 : f.pred_flow / max f.capacity 1 < 4 / 5
      · rw [if_pos h2]; right; left; rfl
      · rw [if_neg h2]; right; right; rfl

theorem congestion_penalty_nonneg (active : Option FMap) (eid : String) :
    0 ≤ congestion_penalty active eid := by
  rcases congestion_penalty_mem active eid with h | h | h <;> rw [h] <;> norm_num

theorem penCost_edge_nonneg {G : Graph EdgeData} (active : Option FMap)
    (hlen : ∀ e ∈ G.edges, 0 ≤ e.2.2.length_m) :
    ∀ e ∈ G.edges, 0 ≤ penCost active e.1 e.2.1 e.2.2 ∧
      0 ≤ penCost active e.2.1 e.1 e.2.2 := by
  intro e he
  have h1 : (0 : ℚ) ≤ e.2.2.length_m := hlen e he
  have h2 : (0 : ℚ) ≤ 1 + congestion_penalty active e.2.2.eid := by
    have := congestion_penalty_nonneg active e.2.2.eid
    linarith
  exact ⟨mul_nonneg h1 h2, mul_nonneg h1 h2⟩

/-! Source equal to target: both searches return the trivial single-node
path immediately. -/

theorem dijkstra_self (G : Graph ε) (c : String → String → ε → ℚ) (X : String) :
    dijkstra G c X X = some (0, [X]) := by
  show dijkstraAux G c X (fuelBound G) [] [(0, [X])] = _
  have h : fuelBound G =
      ((G.nodes.dedup.length + 1) * (G.edges.length + 2) + 1) + 1 := rfl
  rw [h, dijkstraAux]
  have hmin : extractMin [((0 : ℚ), [X])] = some ((0, [X]), []) := rfl
  rw [hmin]
  dsimp only
  rw [if_pos rfl]
  rfl

theorem kLoop_self (G : Graph ε) (w : ε → ℚ) (X : String) (k : ℤ) :
    ∀ fuel, kLoop G w X k (fuel + 1) [] [(0, [X])] = [[X]] := by
  intro fuel
  rw [kLoop]
  have hmin : extractMin [((0 : ℚ), [X])] = some ((0, [X]), []) := rfl
  rw [hmin]
  dsimp only
  by_cases hstop : ((([] ++ [[X]] : List (List String)).length : ℤ) ≥ k)
  · rw [if_pos hstop]
    rfl
  · rw [if_neg hstop]
    have hpush : pushCandidates G w X ([] ++ [[X]]) [X] [] = [] := rfl
    rw [hpush]
    cases fuel with
    | zero => rfl
    | succ n =>
      rw [kLoop]
      rfl

theorem k_shortest_self (G : Graph ε) (w : ε → ℚ) (X : String) (k : ℤ) :
    k_shortest_paths G X X w k = some [[X]] := by
  unfold k_shortest_paths
  rw [dijkstra_self]
  show some (kLoop G w X k (k.toNat + 1) [] [(0, [X])]) = some [[X]]
  rw [kLoop_self]

theorem path_length_single (G : Graph EdgeData) (X : String) :
    path_length G [X] = 0 := rfl

/-! Association lists with python-dict semantics. -/

theorem assocFind_mem {κ ν : Type} [DecidableEq κ] {m : List (κ × ν)} {k : κ}
    {v : ν} (h : assocFind m k = some v) : ∃ p ∈ m, p.2 = v := by
  unfold assocFind at h
  cases hf : m.find? fun p => decide (p.1 = k) with
  | none => rw [hf] at h; simp at h
  | some p =>
    rw [hf] at h
    simp only [Option.map] at h
    injection h with h
    exact ⟨p, List.mem_of_find?_eq_some hf, h⟩

theorem assocUpdate_mem {κ ν : Type} [DecidableEq κ] {m : List (κ × ν)} {k : κ}
    {v : ν} {p : κ × ν} (h : p ∈ assocUpdate m k v) : p ∈ m ∨ p.2 = v := by
  unfold assocUpdate at h
  by_cases hany : m.any fun q => decide (q.1 = k)
  · rw [if_pos hany] at h
    rw [List.mem_map] at h
    obtain ⟨q, hq, heq⟩ := h
    by_cases hqk : q.1 = k
    · rw [if_pos hqk] at heq
      right
      rw [← heq]
    · rw [if_neg hqk] at heq
      left
      rw [← heq]
      exact hq
  · rw [if_neg hany] at h
    rcases List.mem_append.mp h with hm | hm
    · exact Or.inl hm
    · simp only [List.mem_singleton] at hm
      right
      rw [hm]

theorem find?_map_update {κ ν : Type} [DecidableEq κ] (k : κ) (v : ν) :
    ∀ m : List (κ × ν), (m.any fun q => decide (q.1 = k)) = true →
      ((m.map fun q => if q.1 = k then (k, v) else q).find?
        fun q => decide (q.1 = k)) = some (k, v) := by
  intro m
  induction m with
  | nil => intro h; simp at h
  | cons q m ih =>
    intro hany
    simp only [List.map_cons]
    by_cases hq : q.1 = k
    · rw [if_pos hq]
      simp [List.find?]
    · rw [if_neg hq]
      rw [List.find?_cons_of_neg _ (by simpa using hq)]
      apply ih
      simp only [List.any_cons, Bool.or_eq_true, decide_eq_true_eq] at hany
      rcases hany with h | h
      · exact absurd h hq
      · simpa using h

theorem find?_append_none {α : Type} {l1 l2 : List α} {p : α → Bool}
    (h : l1.find? p = none) : (l1 ++ l2).find? p = l2.find? p := by
  induction l1 with
  | nil => simp
  | cons x l1 ih =>
    rw [List.find?_eq_none] at h
    have hx : ¬ p x = true := h x (List.mem_cons_self x l1)
    rw [List.cons_append, List.find?_cons_of_neg _ hx]
    apply ih
    rw [List.find?_eq_none]
    intro y hy
    exact h y (List.mem_cons_of_mem x hy)

theorem assocFind_assocUpdate {κ ν : Type} [DecidableEq κ] (m : List (κ × ν))
    (k : κ) (v : ν) : assocFind (assocUpdate m k v) k = some v := by
  unfold assocFind assocUpdate
  by_cases hany : m.any fun q => decide (q.1 = k)
  · rw [if_pos hany, find?_map_update k v m hany]
    rfl
  · rw [if_neg hany]
    have hnone : (m.find? fun q => decide (q.1 = k)) = none := by
      rw [List.find?_eq_none]
      intro q hq
      simp only [decide_eq_true_eq]
      intro hqk
      exact hany (List.any_eq_true.mpr ⟨q, hq, by simpa using hqk⟩)
    rw [find?_append_none hnone]
    simp [List.find?]

/-! The forecast table and the `/forecast` endpoint. -/

theorem predict_forecast_full (model : FeatureRow → ℚ) (G : Graph EdgeData)
    (hour : ℚ) (day_of_week is_peak : ℤ) :
    FullTable G (predict_forecast model G hour day_of_week is_peak) := by
  unfold FullTable predict_forecast
  rw [List.map_map]
  rfl

theorem forecast_cache_inv (model : FeatureRow → ℚ) (G : Graph EdgeData)
    (σ : ServerState) (hour : ℚ) (day_of_week is_peak : ℤ) (use_cache : Bool)
    (hcache : ∀ kt ∈ σ.cache, FullTable G kt.2) :
    FullTable G (forecast model G σ hour day_of_week is_peak use_cache).1 ∧
      ∀ kt ∈ (forecast model G σ hour day_of_week is_peak use_cache).2.cache,
        FullTable G kt.2 := by
  unfold forecast
  dsimp only
  cases hf : (if use_cache then assocFind σ.cache (hour, day_of_week, is_peak)
      else none) with
  | none =>
    dsimp only
    refine ⟨predict_forecast_full model G hour day_of_week is_peak, ?_⟩
    intro kt hkt
    rcases assocUpdate_mem hkt with hm | hm
    · exact hcache kt hm
    · rw [hm]
      exact predict_forecast_full model G hour day_of_week is_peak
  | some result =>
    dsimp only
    have hres : ∃ p ∈ σ.cache, p.2 = result := by
      by_cases hu : use_cache
      · rw [if_pos hu] at hf
        exact assocFind_mem hf
      · rw [if_neg hu] at hf
        simp at hf
    obtain ⟨p, hp, hp2⟩ := hres
    refine ⟨?_, hcache⟩
    rw [← hp2]
    exact hcache p hp

theorem forecast_hit (model : FeatureRow → ℚ) (G : Graph EdgeData)
    (σ : ServerState) (hour : ℚ) (day_of_week is_peak : ℤ)
    (tbl : List ForecastEntry)
    (h : assocFind σ.cache (hour, day_of_week, is_peak) = some tbl) :
    forecast model G σ hour day_of_week is_peak true =
      (tbl, { cache := σ.cache, active := some (mkMap tbl) }) := by
  unfold forecast
  dsimp only
  have hsel : (if true = true
      then assocFind σ.cache (hour, day_of_week, is_peak) else none) = some tbl := by
    rw [if_pos rfl]
    exact h
  rw [hsel]

theorem forecast_miss (model : FeatureRow → ℚ) (G : Graph EdgeData)
    (σ : ServerState) (hour : ℚ) (day_of_week is_peak : ℤ) (use_cache : Bool)
    (h : use_cache = false ∨
      assocFind σ.cache (hour, day_of_week, is_peak) = none) :
    forecast model G σ hour day_of_week is_peak use_cache =
      (predict_forecast model G hour day_of_week is_peak,
       { cache := assocUpdate σ.cache (hour, day_of_week, is_peak)
           (predict_forecast model G hour day_of_week is_peak)
         active := some (mkMap (predict_forecast model G hour day_of_week is_peak)) }) := by
  unfold forecast
  dsimp only
  have hsel : (if use_cache = true then assocFind σ.cache (hour, day_of_week, is_peak)
      else none) = none := by
    rcases h with h | h
    · rw [h]; rfl
    · cases use_cache
      · rfl
      · rw [if_pos rfl]; exact h
  rw [hsel]

theorem forecast_active (model : FeatureRow → ℚ) (G : Graph EdgeData)
    (σ : ServerState) (hour : ℚ) (day_of_week is_peak : ℤ) (use_cache : Bool) :
    (forecast model G σ hour day_of_week is_peak use_cache).2.active =
      some (mkMap (forecast model G σ hour day_of_week is_peak use_cache).1) := by
  unfold forecast
  dsimp only
  cases hf : (if use_cache = true then assocFind σ.cache (hour, day_of_week, is_peak)
      else none) with
  | none => rfl
  | some result => rfl

/-! Optimality of the searches under edge-wise nonnegative costs, via
congruence with the truncated cost. -/

theorem dijkstra_correct_edge {G : Graph ε} {c : String → String → ε → ℚ}
    {source target : String}
    (wf : G.WellFormed) (uniq : G.EdgeUnique)
    (hnn : ∀ e ∈ G.edges, 0 ≤ c e.1 e.2.1 e.2.2 ∧ 0 ≤ c e.2.1 e.1 e.2.2)
    (hs : source ∈ G.nodes)
    (hconn : ∃ q, IsPathFromTo G q source target ∧ q.Nodup) :
    ∃ d p, dijkstra G c source target = some (d, p) ∧
      IsPathFromTo G p source target ∧ p.Nodup ∧ d = pathCost G c p ∧
      ∀ q, IsPathFromTo G q source target → q.Nodup →
        pathCost G c p ≤ pathCost G c q := by
  have hagree : ∀ e ∈ G.edges,
      c e.1 e.2.1 e.2.2 = (fun u v d => max (c u v d) 0) e.1 e.2.1 e.2.2 ∧
      c e.2.1 e.1 e.2.2 = (fun u v d => max (c u v d) 0) e.2.1 e.1 e.2.2 :=
    fun e he => ⟨(max_eq_left (hnn e he).1).symm, (max_eq_left (hnn e he).2).symm⟩
  have hmain : ∃ d p,
      dijkstra G (fun u v d => max (c u v d) 0) source target = some (d, p) ∧
      IsPathFromTo G p source target ∧ p.Nodup ∧
      d = pathCost G (fun u v d => max (c u v d) 0) p ∧
      ∀ q, IsPathFromTo G q source target → q.Nodup →
        d ≤ pathCost G (fun u v d => max (c u v d) 0) q :=
    dijkstra_correct wf uniq (fun _ _ d => le_max_right _ 0) hs hconn
  obtain ⟨d, p, h1, h2, h3, h4, h5⟩ := hmain
  have hpc : ∀ q, pathCost G c q = pathCost G (fun u v d => max (c u v d) 0) q :=
    pathCost_congr hagree
  refine ⟨d, p, ?_, h2, h3, ?_, ?_⟩
  · have hde : dijkstra G c source target =
        dijkstra G (fun u v d => max (c u v d) 0) source target :=
      dijkstra_congr hagree source target
    rw [hde]
    exact h1
  · rw [hpc p]
    exact h4
  · intro q hq hqn
    rw [hpc p, hpc q, ← h4]
    exact h5 q hq hqn

theorem k_shortest_correct_edge {G : Graph ε} {w : ε → ℚ}
    {source target : String} {k : ℤ}
    (wf : G.WellFormed) (uniq : G.EdgeUnique)
    (hw : ∀ e ∈ G.edges, 0 ≤ w e.2.2) (hk : 1 ≤ k)
    (hs : source ∈ G.nodes)
    (hconn : ∃ q, IsPathFromTo G q source target ∧ q.Nodup) :
    ∃ out, k_shortest_paths G source target w k = some out ∧
      out ≠ [] ∧ (out.length : ℤ) ≤ k ∧
      (∀ p ∈ out, IsPathFromTo G p source target ∧ p.Nodup) ∧
      out.Nodup ∧
      List.Pairwise (fun p q => pathCost G (wCost w) p ≤ pathCost G (wCost w) q) out ∧
      ∀ p₀ ∈ out.head?, ∀ Q, IsPathFromTo G Q source target → Q.Nodup →
        pathCost G (wCost w) p₀ ≤ pathCost G (wCost w) Q := by
  have hagree : ∀ e ∈ G.edges, w e.2.2 = (fun d => max (w d) 0) e.2.2 :=
    fun e he => (max_eq_left (hw e he)).symm
  have hmain : ∃ out,
      k_shortest_paths G source target (fun d => max (w d) 0) k = some out ∧
      out ≠ [] ∧ (out.length : ℤ) ≤ k ∧
      (∀ p ∈ out, IsPathFromTo G p source target ∧ p.Nodup) ∧
      out.Nodup ∧
      List.Pairwise (fun p q => pathCost G (wCost fun d => max (w d) 0) p ≤
        pathCost G (wCost fun d => max (w d) 0) q) out ∧
      ∀ p₀ ∈ out.head?, ∀ Q, IsPathFromTo G Q source target → Q.Nodup →
        pathCost G (wCost fun d => max (w d) 0) p₀ ≤
          pathCost G (wCost fun d => max (w d) 0) Q :=
    k_shortest_paths_correct wf uniq (fun d => le_max_right _ 0) hk hs hconn
  obtain ⟨out, h1, h2, h3, h4, h5, h6, h7⟩ := hmain
  have hpc : ∀ q, pathCost G (wCost w) q =
      pathCost G (wCost fun d => max (w d) 0) q :=
    pathCost_congr fun e he => ⟨hagree e he, hagree e he⟩
  refine ⟨out, ?_, h2, h3, h4, h5, ?_, ?_⟩
  · have hke : k_shortest_paths G source target w k =
        k_shortest_paths G source target (fun d => max (w d) 0) k :=
      k_shortest_congr hagree source target k
    rw [hke]
    exact h1
  · exact h6.imp fun hab => by
      rw [hpc _, hpc _]
      exact hab
  · intro p₀ h0 Q hQ hQn
    rw [hpc p₀, hpc Q]
    exact h7 p₀ h0 Q hQ hQn

/-! The `/route` handler: validation order, the forecast gate, response
shape, and the trivial same-node route. -/

theorem route_missing_source (G : Graph EdgeData) (σ : ServerState)
    (t : Option String) (mode : String) (k : ℤ) :
    route G σ none t mode (some k) = .err 400 "source and target are required" := by
  cases t with
  | none => rfl
  | some t => rfl

theorem route_missing_target (G : Graph EdgeData) (σ : ServerState)
    (s : String) (mode : String) (k : ℤ) :
    route G σ (some s) none mode (some k) =
      .err 400 "source and target are required" := rfl

theorem route_crash_k (G : Graph EdgeData) (σ : ServerState)
    (source target : Option String) (mode : String) :
    route G σ source target mode none = .crash "ValueError" := rfl

theorem route_invalid_nodes {G : Graph EdgeData} {σ : ServerState}
    {s t : String} {mode : String} {k : ℤ}
    (h : ¬(s ∈ G.nodes ∧ t ∈ G.nodes)) :
    route G σ (some s) (some t) mode (some k) = .err 400 "invalid source/target" := by
  unfold route
  dsimp only
  rw [if_pos h]

theorem route_forecast_gate {G : Graph EdgeData} {σ : ServerState}
    {s t : String} {mode : String} {k : ℤ}
    (hval : s ∈ G.nodes ∧ t ∈ G.nodes)
    (h : σ.active = none ∨ σ.active = some []) :
    route G σ (some s) (some t) mode (some k) =
      .err 400 "forecast not loaded; call /forecast first" := by
  unfold route
  dsimp only
  rw [if_neg (not_not_intro hval), if_pos h]

theorem route_shape {G : Graph EdgeData} {σ : ServerState}
    {s t : String} {mode : String} {k : ℤ}
    (hval : s ∈ G.nodes ∧ t ∈ G.nodes)
    (hact : ¬(σ.active = none ∨ σ.active = some [])) :
    (∃ out, route G σ (some s) (some t) mode (some k) = .ok out) ∨
      route G σ (some s) (some t) mode (some k) = .err 404 "no path" := by
  unfold route
  dsimp only
  rw [if_neg (not_not_intro hval), if_neg hact]
  by_cases hm1 : mode = "both" ∨ mode = "penalized"
  · rw [if_pos hm1]
    cases hpc : penCompute G σ.active s t k with
    | none => right; rfl
    | some pc =>
      by_cases hm2 : mode = "both" ∨ mode = "distance"
      · rw [if_pos hm2]
        cases hdc : distCompute G s t k with
        | none => right; rfl
        | some dc => left; exact ⟨_, rfl⟩
      · rw [if_neg hm2]
        left; exact ⟨_, rfl⟩
  · rw [if_neg hm1]
    by_cases hm2 : mode = "both" ∨ mode = "distance"
    · rw [if_pos hm2]
      cases hdc : distCompute G s t k with
      | none => right; rfl
      | some dc => left; exact ⟨_, rfl⟩
    · rw [if_neg hm2]
      right; rfl

theorem route_forecast_iff {G : Graph EdgeData} {σ : ServerState}
    {s t : String} {mode : String} {k : ℤ}
    (hval : s ∈ G.nodes ∧ t ∈ G.nodes) :
    route G σ (some s) (some t) mode (some k) =
        .err 400 "forecast not loaded; call /forecast first" ↔
      (σ.active = none ∨ σ.active = some []) := by
  constructor
  · intro heq
    by_contra hact
    rcases route_shape hval hact with ⟨out, hout⟩ | hout
    · rw [hout] at heq
      simp at heq
    · rw [hout] at heq
      simp at heq
  · exact route_forecast_gate hval

theorem route_pen_success {G : Graph EdgeData} {σ : ServerState}
    {s t : String} {k : ℤ}
    (wf : G.WellFormed) (uniq : G.EdgeUnique)
    (hlen : ∀ e ∈ G.edges, 0 ≤ e.2.2.length_m)
    (hval : s ∈ G.nodes ∧ t ∈ G.nodes)
    (hconn : ∃ q, IsPathFromTo G q s t ∧ q.Nodup)
    (hact : ¬(σ.active = none ∨ σ.active = some [])) :
    ∃ out, route G σ (some s) (some t) "penalized" (some k) = .ok out := by
  obtain ⟨d, p, hdij, -, -, -, -⟩ :=
    dijkstra_correct_edge wf uniq (penCost_edge_nonneg σ.active hlen) hval.1 hconn
  have hastar : astar_with_congestion G σ.active s t = some (d, p) := hdij
  have hdijp : dijkstra (build_penalized_graph G σ.active)
      (fun _ _ dd => dd.2) s t = some (d, p) := by
    rw [dijkstra_penalized]
    exact hdij
  have hks : k_shortest_paths (build_penalized_graph G σ.active) s t Prod.snd k =
      some (kLoop (build_penalized_graph G σ.active) Prod.snd t k
        (k.toNat + 1) [] [(d, p)]) := by
    unfold k_shortest_paths
    rw [hdijp]
  have hpen : penCompute G σ.active s t k =
      some (⟨p, path_length G p⟩,
        (kLoop (build_penalized_graph G σ.active) Prod.snd t k
          (k.toNat + 1) [] [(d, p)]).map fun q => ⟨q, path_length G q⟩) := by
    unfold penCompute
    rw [hastar, hks]
  unfold route
  dsimp only
  rw [if_neg (not_not_intro hval), if_neg hact, if_pos (Or.inr rfl), hpen,
    if_neg (by simp)]
  exact ⟨_, rfl⟩

theorem route_self_ok {G : Graph EdgeData} {σ : ServerState} {X : String} {k : ℤ}
    (hX : X ∈ G.nodes) (hact : ¬(σ.active = none ∨ σ.active = some [])) :
    route G σ (some X) (some X) "both" (some k) =
      .ok { best := some ⟨[X], 0⟩, best_alts := some [⟨[X], 0⟩],
            shortest := some ⟨[X], 0⟩, shortest_alts := some [⟨[X], 0⟩] } := by
  have h1 : astar_with_congestion G σ.active X X = some (0, [X]) :=
    dijkstra_self G (penCost σ.active) X
  have h2 : astar_distance_only G X X = some (0, [X]) :=
    dijkstra_self G distCost X
  have hpen : penCompute G σ.active X X k = some (⟨[X], 0⟩, [⟨[X], 0⟩]) := by
    unfold penCompute
    rw [h1]
    dsimp only
    rw [k_shortest_self]
    rfl
  have hdist : distCompute G X X k = some (⟨[X], 0⟩, [⟨[X], 0⟩]) := by
    unfold distCompute
    rw [h2]
    dsimp only
    rw [k_shortest_self]
    rfl
  unfold route
  dsimp only
  rw [if_neg (not_not_intro ⟨hX, hX⟩), if_neg hact, if_pos (Or.inl rfl), hpen,
    if_pos (Or.inl rfl), hdist]
  rfl

/-! The claims. -/

/-- Claim C1: for every pair of endpoints present in the graph and joined by
some path, and nonnegative stored edge lengths, the zero-heuristic
single-path searches (`astar_with_congestion` under any active forecast, and
`astar_distance_only`) return a path from source to target whose total cost
under the respective cost function is at most that of every simple path
between them. -/
theorem claim_C1_astar_min_cost {G : Graph EdgeData} {source target : String}
    (wf : G.WellFormed) (uniq : G.EdgeUnique)
    (hlen : ∀ e ∈ G.edges, 0 ≤ e.2.2.length_m)
    (hs : source ∈ G.nodes)
    (hconn : ∃ q, IsPathFromTo G q source target ∧ q.Nodup)
    (active : Option FMap) :
    (∃ d p, astar_with_congestion G active source target = some (d, p) ∧
      IsPathFromTo G p source target ∧ p.Nodup ∧
      ∀ q, IsPathFromTo G q source target → q.Nodup →
        pathCost G (penCost active) p ≤ pathCost G (penCost active) q) ∧
    (∃ d p, astar_distance_only G source target = some (d, p) ∧
      IsPathFromTo G p source target ∧ p.Nodup ∧
      ∀ q, IsPathFromTo G q source target → q.Nodup →
        pathCost G distCost p ≤ pathCost G distCost q) := by
  constructor
  · have hmain : ∃ d p, dijkstra G (penCost active) source target = some (d, p) ∧
        IsPathFromTo G p source target ∧ p.Nodup ∧
        d = pathCost G (penCost active) p ∧
        ∀ q, IsPathFromTo G q source target → q.Nodup →
          pathCost G (penCost active) p ≤ pathCost G (penCost active) q :=
      dijkstra_correct_edge wf uniq (penCost_edge_nonneg active hlen) hs hconn
    obtain ⟨d, p, h1, h2, h3, _, h5⟩ := hmain
    exact ⟨d, p, h1, h2, h3, h5⟩
  · have hmain : ∃ d p, dijkstra G distCost source target = some (d, p) ∧
        IsPathFromTo G p source target ∧ p.Nodup ∧
        d = pathCost G distCost p ∧
        ∀ q, IsPathFromTo G q source target → q.Nodup →
          pathCost G distCost p ≤ pathCost G distCost q :=
      dijkstra_correct_edge wf uniq (fun e he => ⟨hlen e he, hlen e he⟩) hs hconn
    obtain ⟨d, p, h1, h2, h3, _, h5⟩ := hmain
    exact ⟨d, p, h1, h2, h3, h5⟩

/-- Witness for C1 on the concrete two-node campus. -/
theorem claim_C1_witness :
    (∃ d p, astar_with_congestion Gw none "A" "B" = some (d, p) ∧
      IsPathFromTo Gw p "A" "B" ∧ p.Nodup ∧
      ∀ q, IsPathFromTo Gw q "A" "B" → q.Nodup →
        pathCost Gw (penCost none) p ≤ pathCost Gw (penCost none) q) ∧
    (∃ d p, astar_distance_only Gw "A" "B" = some (d, p) ∧
      IsPathFromTo Gw p "A" "B" ∧ p.Nodup ∧
      ∀ q, IsPathFromTo Gw q "A" "B" → q.Nodup →
        pathCost Gw distCost p ≤ pathCost Gw distCost q) :=
  claim_C1_astar_min_cost (by with_unfolding_all decide) (by with_unfolding_all decide) (by with_unfolding_all decide) (by with_unfolding_all decide)
    ⟨["A", "B"], by with_unfolding_all decide, by with_unfolding_all decide⟩ none

/-- Claim C2 (amended): for k ≥ 1, edge-wise nonnegative weights and
endpoints joined by some simple path, `k_shortest_paths` returns a nonempty
sequence of at most k pairwise-distinct simple paths from source to target
whose costs are non-decreasing (not strictly increasing: ties occur), whose
first element is a minimum-cost simple path; for a disconnected pair it
propagates `NetworkXNoPath` (`none`) instead of returning an empty
sequence. -/
theorem claim_C2_k_shortest {G : Graph ε} {w : ε → ℚ}
    {source target : String} {k : ℤ}
    (wf : G.WellFormed) (uniq : G.EdgeUnique)
    (hw : ∀ e ∈ G.edges, 0 ≤ w e.2.2) (hk : 1 ≤ k)
    (hs : source ∈ G.nodes)
    (hconn : ∃ q, IsPathFromTo G q source target ∧ q.Nodup) :
    ∃ out, k_shortest_paths G source target w k = some out ∧
      out ≠ [] ∧ (out.length : ℤ) ≤ k ∧
      (∀ p ∈ out, IsPathFromTo G p source target ∧ p.Nodup) ∧
      out.Nodup ∧
      List.Pairwise (fun p q => pathCost G (wCost w) p ≤ pathCost G (wCost w) q) out ∧
      ∀ p₀ ∈ out.head?, ∀ Q, IsPathFromTo G Q source target → Q.Nodup →
        pathCost G (wCost w) p₀ ≤ pathCost G (wCost w) Q :=
  k_shortest_correct_edge wf uniq hw hk hs hconn

/-- Witness for C2 on the concrete two-node campus. -/
theorem claim_C2_witness :
    ∃ out, k_shortest_paths Gw "A" "B" (fun d => d.weight) 3 = some out ∧
      out ≠ [] ∧ (out.length : ℤ) ≤ 3 ∧
      (∀ p ∈ out, IsPathFromTo Gw p "A" "B" ∧ p.Nodup) ∧
      out.Nodup ∧
      List.Pairwise (fun p q => pathCost Gw (wCost fun d => d.weight) p ≤
        pathCost Gw (wCost fun d => d.weight) q) out ∧
      ∀ p₀ ∈ out.head?, ∀ Q, IsPathFromTo Gw Q "A" "B" → Q.Nodup →
        pathCost Gw (wCost fun d => d.weight) p₀ ≤
          pathCost Gw (wCost fun d => d.weight) Q :=
  claim_C2_k_shortest (by with_unfolding_all decide) (by with_unfolding_all decide) (by with_unfolding_all decide) (by with_unfolding_all decide) (by with_unfolding_all decide)
    ⟨["A", "B"], by with_unfolding_all decide, by with_unfolding_all decide⟩

/-- Counterexample to C2 as stated: on the diamond graph the two returned
paths have equal total cost, so the costs are not strictly increasing; and
for a disconnected pair the enumerator raises (`none`) rather than
returning the shorter (empty) sequence without error. -/
theorem claim_C2_counterexample :
    k_shortest_paths Gsq "A" "D" (fun d => d.weight) 2 =
        some [["A", "B", "D"], ["A", "C", "D"]] ∧
    pathCost Gsq (wCost fun d => d.weight) ["A", "B", "D"] =
      pathCost Gsq (wCost fun d => d.weight) ["A", "C", "D"] ∧
    k_shortest_paths Gdisc "A" "B" (fun d => d.weight) 1 = none := by
  refine ⟨by with_unfolding_all decide, by with_unfolding_all decide, by with_unfolding_all decide⟩

/-- Claim C3: `congestion_penalty` always lands in {0, 0.3, 0.7}; it is 0
when the edge is absent from the active forecast (in particular when there
is none), and otherwise tiers on the ratio predicted flow over
max(capacity, 1) at 0.5 and 0.8. -/
theorem claim_C3_penalty_tiers (active : Option FMap) (edge_id : String) :
    (congestion_penalty active edge_id = 0 ∨
      congestion_penalty active edge_id = 3 / 10 ∨
      congestion_penalty active edge_id = 7 / 10) ∧
    (assocFind (active.getD []) edge_id = none →
      congestion_penalty active edge_id = 0) ∧
    (∀ f, assocFind (active.getD []) edge_id = some f →
      ((f.pred_flow / max f.capacity 1 < 1 / 2 →
          congestion_penalty active edge_id = 0) ∧
       (1 / 2 ≤ f.pred_flow / max f.capacity 1 →
          f.pred_flow / max f.capacity 1 < 4 / 5 →
          congestion_penalty active edge_id = 3 / 10) ∧
       (4 / 5 ≤ f.pred_flow / max f.capacity 1 →
          congestion_penalty active edge_id = 7 / 10))) := by
  refine ⟨congestion_penalty_mem active edge_id, ?_, ?_⟩
  · intro h
    unfold congestion_penalty
    dsimp only
    rw [h]
  · intro f hf
    unfold congestion_penalty
    dsimp only
    rw [hf]
    dsimp only
    refine ⟨?_, ?_, ?_⟩
    · intro h1
      rw [if_pos h1]
    · intro hge hlt
      rw [if_neg (not_lt.mpr hge), if_pos hlt]
    · intro hge
      have hh : (1 / 2 : ℚ) ≤ f.pred_flow / max f.capacity 1 :=
        le_trans (by norm_num) hge
      rw [if_neg (not_lt.mpr hh), if_neg (not_lt.mpr hge)]

/-- Witness for C3: a fully loaded edge gets the 0.7 tier. -/
theorem claim_C3_witness :
    congestion_penalty (some [("e", ⟨"e", 9, 10⟩)]) "e" = 7 / 10 :=
  ((claim_C3_penalty_tiers (some [("e", ⟨"e", 9, 10⟩)]) "e").2.2
    ⟨"e", 9, 10⟩ (by with_unfolding_all decide)).2.2 (by norm_num)

/-- Claim C4 (amended): with valid endpoints, a `/route` request fails with
the explicit "forecast not loaded" error exactly when no forecast is active
in the process — for every mode, including mode=distance, not only the
penalized ones; once a forecast is active, a mode=penalized request on a
connected pair succeeds. -/
theorem claim_C4_forecast_gate {G : Graph EdgeData} {σ : ServerState}
    {s t : String} {mode : String} {k : ℤ}
    (wf : G.WellFormed) (uniq : G.EdgeUnique)
    (hlen : ∀ e ∈ G.edges, 0 ≤ e.2.2.length_m)
    (hval : s ∈ G.nodes ∧ t ∈ G.nodes)
    (hconn : ∃ q, IsPathFromTo G q s t ∧ q.Nodup) :
    (route G σ (some s) (some t) mode (some k) =
        .err 400 "forecast not loaded; call /forecast first" ↔
      (σ.active = none ∨ σ.active = some [])) ∧
    (¬(σ.active = none ∨ σ.active = some []) →
      ∃ out, route G σ (some s) (some t) "penalized" (some k) = .ok out) :=
  ⟨route_forecast_iff hval,
   fun hact => route_pen_success wf uniq hlen hval hconn hact⟩

/-- Witness for C4 on the concrete two-node campus. -/
theorem claim_C4_witness :
    (route Gw st0 (some "A") (some "B") "distance" (some 3) =
        .err 400 "forecast not loaded; call /forecast first" ↔
      (st0.active = none ∨ st0.active = some [])) ∧
    (¬(st0.active = none ∨ st0.active = some []) →
      ∃ out, route Gw st0 (some "A") (some "B") "penalized" (some 3) = .ok out) :=
  claim_C4_forecast_gate (by with_unfolding_all decide) (by with_unfolding_all decide) (by with_unfolding_all decide)
    ⟨by with_unfolding_all decide, by with_unfolding_all decide⟩ ⟨["A", "B"], by with_unfolding_all decide, by with_unfolding_all decide⟩

/-- Counterexample to C4 as stated: a mode=distance request with valid,
connected endpoints still fails with the "forecast not loaded" error when no
forecast has been resolved, although the claim exempts modes that do not
include "penalized". -/
theorem claim_C4_counterexample :
    Gw.isWalk ["A", "B"] = true ∧ "A" ∈ Gw.nodes ∧ "B" ∈ Gw.nodes ∧
    route Gw st0 (some "A") (some "B") "distance" (some 3) =
      .err 400 "forecast not loaded; call /forecast first" := by
  refine ⟨by with_unfolding_all decide, by with_unfolding_all decide, by with_unfolding_all decide, by with_unfolding_all decide⟩

/-- Claim C5 (amended): a missing source or target, and endpoints absent
from the graph, short-circuit with a 400 structured error before any search;
but contrary to the claimed contract, a non-integer k crashes with an
uncaught ValueError before those checks (k < 1 and unknown modes are not
validated at all). -/
theorem claim_C5_validation {G : Graph EdgeData} {σ : ServerState}
    {mode : String} {k : ℤ} {s t : String} :
    (∀ t', route G σ none t' mode (some k) =
      .err 400 "source and target are required") ∧
    (route G σ (some s) none mode (some k) =
      .err 400 "source and target are required") ∧
    (¬(s ∈ G.nodes ∧ t ∈ G.nodes) →
      route G σ (some s) (some t) mode (some k) =
        .err 400 "invalid source/target") ∧
    (∀ src tgt, route G σ src tgt mode none = .crash "ValueError") :=
  ⟨fun t' => route_missing_source G σ t' mode k,
   route_missing_target G σ s mode k,
   fun h => route_invalid_nodes h,
   fun src tgt => route_crash_k G σ src tgt mode⟩

/-- Counterexample to C5 as stated: a non-integer k crashes with an uncaught
ValueError (an HTTP 500, not a 4xx validation error), an unknown mode falls
through the searches to a 404 response, and k = 0 is accepted and served. -/
theorem claim_C5_counterexample :
    route Gw st1 (some "A") (some "B") "both" none = .crash "ValueError" ∧
    route Gw st1 (some "A") (some "B") "flying" (some 3) = .err 404 "no path" ∧
    isOkResp (route Gw st1 (some "A") (some "B") "both" (some 0)) = true := by
  refine ⟨by with_unfolding_all decide, by with_unfolding_all decide, by with_unfolding_all decide⟩

/-- Claim C6: `predict_forecast` emits exactly one fully populated entry per
stored edge, keyed by that edge's identifier; and the `/forecast` endpoint
preserves and serves only such full tables (the cache never holds or serves
a partial one). -/
theorem claim_C6_full_tables (model : FeatureRow → ℚ) (G : Graph EdgeData)
    (σ : ServerState) (hour : ℚ) (day_of_week is_peak : ℤ) (use_cache : Bool) :
    FullTable G (predict_forecast model G hour day_of_week is_peak) ∧
    ((∀ kt ∈ σ.cache, FullTable G kt.2) →
      FullTable G (forecast model G σ hour day_of_week is_peak use_cache).1 ∧
      ∀ kt ∈ (forecast model G σ hour day_of_week is_peak use_cache).2.cache,
        FullTable G kt.2) :=
  ⟨predict_forecast_full model G hour day_of_week is_peak,
   fun hc => forecast_cache_inv model G σ hour day_of_week is_peak use_cache hc⟩

/-- Claim C7: on a cache hit with the cache enabled, `/forecast` serves the
stored table unchanged without touching the cache and independently of the
predictor; on a bypass or miss it computes, stores (overwriting the key) and
serves a fresh table; and in every case the active-forecast pointer is
repointed at the returned table. -/
theorem claim_C7_forecast_cache (model model' : FeatureRow → ℚ)
    (G : Graph EdgeData) (σ : ServerState) (hour : ℚ)
    (day_of_week is_peak : ℤ) (use_cache : Bool) :
    (∀ tbl, assocFind σ.cache (hour, day_of_week, is_peak) = some tbl →
      forecast model G σ hour day_of_week is_peak true =
        (tbl, { cache := σ.cache, active := some (mkMap tbl) }) ∧
      forecast model G σ hour day_of_week is_peak true =
        forecast model' G σ hour day_of_week is_peak true) ∧
    ((use_cache = false ∨
        assocFind σ.cache (hour, day_of_week, is_peak) = none) →
      forecast model G σ hour day_of_week is_peak use_cache =
        (predict_forecast model G hour day_of_week is_peak,
         { cache := assocUpdate σ.cache (hour, day_of_week, is_peak)
             (predict_forecast model G hour day_of_week is_peak)
           active := some (mkMap
             (predict_forecast model G hour day_of_week is_peak)) })) ∧
    assocFind (assocUpdate σ.cache (hour, day_of_week, is_peak)
        (predict_forecast model G hour day_of_week is_peak))
      (hour, day_of_week, is_peak) =
        some (predict_forecast model G hour day_of_week is_peak) ∧
    (forecast model G σ hour day_of_week is_peak use_cache).2.active =
      some (mkMap (forecast model G σ hour day_of_week is_peak use_cache).1) := by
  refine ⟨?_, forecast_miss model G σ hour day_of_week is_peak use_cache,
    assocFind_assocUpdate σ.cache (hour, day_of_week, is_peak)
      (predict_forecast model G hour day_of_week is_peak),
    forecast_active model G σ hour day_of_week is_peak use_cache⟩
  intro tbl htbl
  refine ⟨forecast_hit model G σ hour day_of_week is_peak tbl htbl, ?_⟩
  rw [forecast_hit model G σ hour day_of_week is_peak tbl htbl,
    forecast_hit model' G σ hour day_of_week is_peak tbl htbl]

/-- Claim C8 (amended): when the k-alternatives enumerator runs with k = 1
on the `pen_weight` view under the congestion-penalized cost matching the
primary search, it returns exactly one path — a minimum-cost simple path
from source to target of the same penalized total cost as the primary
search's path.  The two paths coincide in cost, not necessarily by
identity: the enumerator's inner search (networkx
`_bidirectional_dijkstra`) breaks equal-cost ties differently from
`astar_path`. -/
theorem claim_C8_k1_same_cost {G : Graph EdgeData} {active : Option FMap}
    {s t : String} {d : ℚ} {p : List String}
    (wf : G.WellFormed) (uniq : G.EdgeUnique)
    (hlen : ∀ e ∈ G.edges, 0 ≤ e.2.2.length_m) (hs : s ∈ G.nodes)
    (h : astar_with_congestion G active s t = some (d, p)) :
    ∃ p', k_shortest_paths (build_penalized_graph G active) s t Prod.snd 1 =
        some [p'] ∧
      IsPathFromTo G p' s t ∧ p'.Nodup ∧
      pathCost G (penCost active) p' = pathCost G (penCost active) p ∧
      ∀ q, IsPathFromTo G q s t → q.Nodup →
        pathCost G (penCost active) p' ≤ pathCost G (penCost active) q := by
  have hdijp : dijkstra (build_penalized_graph G active)
      (fun _ _ dd => Prod.snd dd) s t = some (d, p) := by
    rw [dijkstra_penalized]
    exact h
  have hks : k_shortest_paths (build_penalized_graph G active) s t Prod.snd 1 =
      some [p] := k_shortest_one hdijp
  have hagree : ∀ e ∈ G.edges,
      penCost active e.1 e.2.1 e.2.2 =
        (fun u v dd => max (penCost active u v dd) 0) e.1 e.2.1 e.2.2 ∧
      penCost active e.2.1 e.1 e.2.2 =
        (fun u v dd => max (penCost active u v dd) 0) e.2.1 e.1 e.2.2 :=
    fun e he => ⟨(max_eq_left ((penCost_edge_nonneg active hlen) e he).1).symm,
                 (max_eq_left ((penCost_edge_nonneg active hlen) e he).2).symm⟩
  have hres' : dijkstra G (fun u v dd => max (penCost active u v dd) 0) s t =
      some (d, p) := by
    have hde : dijkstra G (penCost active) s t =
        dijkstra G (fun u v dd => max (penCost active u v dd) 0) s t :=
      dijkstra_congr hagree s t
    rw [← hde]
    exact h
  obtain ⟨hpath, hnodup, hcost, hopt⟩ :=
    dijkstra_sound wf uniq (fun _ _ _ => le_max_right _ 0) hs hres'
  have hpc : ∀ q, pathCost G (penCost active) q =
      pathCost G (fun u v dd => max (penCost active u v dd) 0) q :=
    pathCost_congr hagree
  refine ⟨p, hks, hpath, hnodup, rfl, ?_⟩
  intro q hq hqn
  rw [hpc p, hpc q, ← hcost]
  exact hopt q hq hqn

/-- Witness for C8 on the concrete two-node campus. -/
theorem claim_C8_witness :
    ∃ p', k_shortest_paths (build_penalized_graph Gw none) "A" "B" Prod.snd 1 =
        some [p'] ∧
      IsPathFromTo Gw p' "A" "B" ∧ p'.Nodup ∧
      pathCost Gw (penCost none) p' = pathCost Gw (penCost none) ["A", "B"] ∧
      ∀ q, IsPathFromTo Gw q "A" "B" → q.Nodup →
        pathCost Gw (penCost none) p' ≤ pathCost Gw (penCost none) q := by
  have h : astar_with_congestion Gw none "A" "B" = some (5, ["A", "B"]) := by
    with_unfolding_all decide
  exact claim_C8_k1_same_cost (by with_unfolding_all decide)
    (by with_unfolding_all decide) (by with_unfolding_all decide)
    (by with_unfolding_all decide) h

/-- Counterexample to C8 as stated: on the unit-length diamond `Gbd` the
primary search settles [A, B, D] (forward insertion-order tie-breaking),
while the enumerator's first path — its inner `_bidirectional_dijkstra` on
the `pen_weight` view under the matching cost — settles [A, C, D] (the
backward frontier from D reaches C first), at the same minimum cost 2, so
the first enumerated path does not coincide with the primary path on
equal-cost ties. -/
theorem claim_C8_counterexample :
    astar_with_congestion Gbd none "A" "D" = some (2, ["A", "B", "D"]) ∧
    bidirectional_dijkstra (build_penalized_graph Gbd none)
      (fun _ _ dd => Prod.snd dd) "A" "D" = some (2, ["A", "C", "D"]) ∧
    (["A", "B", "D"] : List String) ≠ ["A", "C", "D"] := by
  refine ⟨by with_unfolding_all decide, by with_unfolding_all decide,
    by with_unfolding_all decide⟩

/-- Claim C9: once a forecast is active, a `/route` request from a node to
itself succeeds and returns the trivial single-node path with total length
0 in every part of the response. -/
theorem claim_C9_trivial_self_route {G : Graph EdgeData} {σ : ServerState}
    {X : String} {k : ℤ}
    (hX : X ∈ G.nodes) (hact : ¬(σ.active = none ∨ σ.active = some [])) :
    route G σ (some X) (some X) "both" (some k) =
      .ok { best := some ⟨[X], 0⟩, best_alts := some [⟨[X], 0⟩],
            shortest := some ⟨[X], 0⟩, shortest_alts := some [⟨[X], 0⟩] } :=
  route_self_ok hX hact

/-- Witness for C9 on the concrete two-node campus. -/
theorem claim_C9_witness :
    route Gw st1 (some "A") (some "A") "both" (some 3) =
      .ok { best := some ⟨["A"], 0⟩, best_alts := some [⟨["A"], 0⟩],
            shortest := some ⟨["A"], 0⟩, shortest_alts := some [⟨["A"], 0⟩] } :=
  claim_C9_trivial_self_route (by with_unfolding_all decide) (by with_unfolding_all decide)

/-- Claim C10: the penalized weights of a `/route` request live only in the
per-request copy: the copy keeps the base graph's node list and stored edge
attributes intact (stripping the derived weight recovers the graph exactly),
and the derived weight is computed, not written back. -/
theorem claim_C10_copy_frame (G : Graph EdgeData) (active : Option FMap) :
    (build_penalized_graph G active).nodes = G.nodes ∧
    ((build_penalized_graph G active).edges.map
      fun e => (e.1, e.2.1, e.2.2.1)) = G.edges ∧
    ∀ e ∈ (build_penalized_graph G active).edges,
      e.2.2.2 = e.2.2.1.length_m * (1 + congestion_penalty active e.2.2.1.eid) := by
  refine ⟨rfl, ?_, ?_⟩
  · rw [build_penalized_graph_eq]
    dsimp only
    rw [List.map_map]
    have hcomp : ((fun e : String × String × (EdgeData × ℚ) => (e.1, e.2.1, e.2.2.1)) ∘
        (fun e : String × String × EdgeData => (e.1, e.2.1,
          (e.2.2, e.2.2.length_m * (1 + congestion_penalty active e.2.2.eid))))) =
        fun e : String × String × EdgeData => (e.1, e.2.1, e.2.2) := rfl
    rw [hcomp]
    conv_rhs => rw [← List.map_id G.edges]
    apply List.map_congr_left
    intro e _
    rfl
  · intro e he
    rw [build_penalized_graph_eq] at he
    dsimp only at he
    rw [List.mem_map] at he
    obtain ⟨e0, _, heq⟩ := he
    rw [← heq]

end CampusNav
